import Mathlib

set_option linter.unusedVariables false

/-!
Verification of `build_static.py`, a static-site generator that turns a tree
of NetLogo model files into one HTML page per model plus an index page.

Strings are shallowly embedded as `List Char` (Python `str` is a sequence of
code points; Lean's `String` operations do not reduce in the kernel, so we
work with the underlying character lists throughout).  Python byte strings
are embedded as `List Nat`.
-/

/-- A Python string, embedded as its list of characters. -/
abbrev Str := List Char

/-- Character-wise lowercasing.  Models Python `str.lower` on ASCII input
(the delimiters and all comparisons in the program are ASCII-insensitive in
the same way). -/
def lowStr (s : Str) : Str := s.map Char.toLower

/-- Python whitespace characters as used by `str.strip()` (ASCII range). -/
def pyIsSpace (c : Char) : Bool :=
  c = ' ' || c = '\t' || c = '\n' || c = '\r' || c = '\x0b' || c = '\x0c'

/-- Python `str.strip()`: remove leading and trailing whitespace. -/
def pyStrip (s : Str) : Str :=
  ((s.dropWhile pyIsSpace).reverse.dropWhile pyIsSpace).reverse

/-- Case-insensitive prefix test: does `pat` match at the start of `s` when
both sides are compared lowercased?  This models how `re.IGNORECASE` compares
the literal characters of the pattern with the text. -/
def isPreCI : Str → Str → Bool
  | [], _ => true
  | _ :: _, [] => false
  | p :: ps, c :: cs => (p.toLower = c.toLower) && isPreCI ps cs

/-- `pat` matches (case-insensitively) at offset `i` of `s`. -/
def matchesAt (pat s : Str) (i : Nat) : Bool := isPreCI pat (s.drop i)

/-- Index of the first case-insensitive occurrence of `pat` in `s`,
mirroring the leftmost-match rule of `re.search` for a literal pattern. -/
def findCI (pat : Str) : Str → Option Nat
  | [] => if isPreCI pat [] then some 0 else none
  | c :: t => if isPreCI pat (c :: t) then some 0 else (findCI pat (t)).map (· + 1)

/-- The opening delimiter of the documentation block in a model file
(`INFO_RE`, literal part before the captured group). -/
def openDelim : Str := "<info><![CDATA[".data

/-- The closing delimiter of the documentation block (`INFO_RE`, literal
part after the captured group). -/
def closeDelim : Str := "]]></info>".data

/-- `extract_info` from `build_static.py`, applied to the decoded text of a
model file.  `INFO_RE` is `<info><!\[CDATA\[(.*?)\]\]></info>` compiled with
`DOTALL | IGNORECASE`; `re.search` finds the leftmost occurrence of the
opening literal that is followed by the closing literal, and the non-greedy
group captures up to the first closing literal after it.  If there is no
match the function returns the empty string, otherwise the captured group
stripped of surrounding whitespace. -/
def extract_info (text : Str) : Str :=
  match findCI openDelim text with
  | none => []
  | some i =>
    match findCI closeDelim (text.drop (i + openDelim.length)) with
    | none => []
    | some j => pyStrip ((text.drop (i + openDelim.length)).take j)

/-- Python `html.escape` on a single character: `&`, `<`, `>`, `"` and `'`
become entities, everything else is unchanged.  (`html.escape` performs the
five `str.replace` calls in an order that makes it equivalent to this
character-wise map.) -/
def escapeChar (c : Char) : Str :=
  if c = '&' then ['&', 'a', 'm', 'p', ';']
  else if c = '<' then ['&', 'l', 't', ';']
  else if c = '>' then ['&', 'g', 't', ';']
  else if c = '"' then ['&', 'q', 'u', 'o', 't', ';']
  else if c = '\'' then ['&', '#', 'x', '2', '7', ';']
  else [c]

/-- Python `html.escape` with `quote=True` (the default used by the code). -/
def htmlEscape (s : Str) : Str := s.flatMap escapeChar

/-- Decoder for the five entities that `html.escape` produces; on such
output it behaves exactly like Python `html.unescape`, so it witnesses that
escaping round-trips. -/
def unescapeHtml : Str → Str
  | [] => []
  | c :: t =>
    if c = '&' ∧ ['a', 'm', 'p', ';'] <+: t then '&' :: unescapeHtml (t.drop 4)
    else if c = '&' ∧ ['l', 't', ';'] <+: t then '<' :: unescapeHtml (t.drop 3)
    else if c = '&' ∧ ['g', 't', ';'] <+: t then '>' :: unescapeHtml (t.drop 3)
    else if c = '&' ∧ ['q', 'u', 'o', 't', ';'] <+: t then '"' :: unescapeHtml (t.drop 5)
    else if c = '&' ∧ ['#', 'x', '2', '7', ';'] <+: t then '\'' :: unescapeHtml (t.drop 5)
    else c :: unescapeHtml t
termination_by s => s.length
decreasing_by
  all_goals simp only [List.length_drop, List.length_cons]
  all_goals omega

-- quick sanity checks (kernel-evaluable)
example : extract_info ("a<info><![CDATA[ hi ]]></info>b".data) = "hi".data := by decide
example : extract_info ("no block here".data) = [] := by decide
example : htmlEscape ("a<b&c".data) = "a&lt;b&amp;c".data := by decide

/-! ## The model-page template

`render_model_page` interpolates into one f-string.  The literal text
between interpolation sites is reproduced here verbatim as `tpl1`-`tpl8`
(`imgTplA`/`imgTplB`/`imgTplC` are the literal parts of the `<img>` element). -/

/-- Placeholder used when a model has no documentation block. -/
def noInfoPlaceholder : Str := "<p><em>No info tab found.</em></p>".data

def tpl1 : Str :=
  ("<!doctype html>\n<html lang=\"en\">\n  <head>\n    <meta charset=\"utf-8\" />\n"
    ++ "    <meta name=\"viewport\" content=\"width=device-width, initial-scale=1\" />\n"
    ++ "    <title>").data

def tpl2 : Str := "</title>\n    <link rel=\"stylesheet\" href=\"".data

def tpl3 : Str :=
  ("\" />\n  </head>\n  <body>\n    <main class=\"model-page\">\n"
    ++ "      <a class=\"back-link\" href=\"").data

def tpl4 : Str :=
  ("\">← Back to list</a>\n      <div class=\"model-card\">\n"
    ++ "        <div class=\"model-header\">\n          <h1>").data

def tpl5 : Str := "</h1>\n          <a class=\"run-button\" href=\"".data

def tpl6 : Str :=
  ("\" target=\"_blank\" rel=\"noopener\">Run on NetLogoWeb</a>\n"
    ++ "        </div>\n        ").data

def tpl7 : Str := "\n        <div class=\"model-info\">".data

def tpl8 : Str := "</div>\n      </div>\n    </main>\n  </body>\n</html>\n".data

def imgTplA : Str := "<img src=\"".data
def imgTplB : Str := "\" alt=\"Screenshot of ".data
def imgTplC : Str := "\" />".data

/-- The `<img>` element of a model page: present only when a screenshot
path was found, otherwise the empty string (`image_html = ""`). -/
def imageHtml (image_src : Option Str) (escaped_title : Str) : Str :=
  match image_src with
  | some src => imgTplA ++ htmlEscape src ++ imgTplB ++ escaped_title ++ imgTplC
  | none => []

/-- `render_model_page` from `build_static.py`.  The `model_rel` parameter
is accepted but never used, exactly as in the source.  The title and every
href/src value are passed through `html.escape`; the documentation fragment
`info_html` is interpolated raw, with a fixed placeholder substituted when
it is empty. -/
def render_model_page (title model_rel info_html : Str) (image_src : Option Str)
    (stylesheet_href back_href netlogo_url : Str) : Str :=
  let escaped_title := htmlEscape title
  let info_block := if info_html = [] then noInfoPlaceholder else info_html
  let image_html := imageHtml image_src escaped_title
  tpl1 ++ escaped_title ++ tpl2 ++ htmlEscape stylesheet_href ++ tpl3
    ++ htmlEscape back_href ++ tpl4 ++ escaped_title ++ tpl5
    ++ htmlEscape netlogo_url ++ tpl6 ++ image_html ++ tpl7 ++ info_block ++ tpl8

/-! ## Path helpers and the per-model pipeline -/

/-- `PurePath.as_posix` for a relative path given as its segments. -/
def asPosix (parts : List Str) : Str := List.intercalate ("/".data) parts

/-- Index of the last `.` in a file name, if any (`none` when the name has
no dot after its first character, in which case `pathlib` reports an empty
suffix). -/
def lastDotIdx (name : Str) : Option Nat :=
  (List.range name.length).foldl
    (fun acc i => if name.get? i = some '.' ∧ 0 < i then some i else acc) none

/-- `PurePath.stem`: the final path component without its last suffix. -/
def pathStem (name : Str) : Str :=
  match lastDotIdx name with
  | some i => name.take i
  | none => name

/-- `PurePath.with_suffix`: replace the suffix of the last segment. -/
def withSuffix (parts : List Str) (suffix : Str) : List Str :=
  match parts.reverse with
  | [] => []
  | name :: rest => (rest.reverse) ++ [pathStem name ++ suffix]

/-- `netlogoweb_url` from `build_static.py`: percent-encode the spaces of
the model's posix relative path and append it to the fixed base URL. -/
def netlogoweb_url (rel_posix : Str) : Str :=
  ("https://netlogoweb.org/launch#https://netlogoweb.org/assets/modelslib/".data)
    ++ rel_posix.flatMap (fun c => if c = ' ' then "%20".data else [c])

/-- `relative_image_path` from `build_static.py`: when a sibling `.png`
exists under the source models directory, the page links to it through
`prefix_to_site` followed by the literal `"../models/"`.  The existence
check (`png_path.exists()`) is a filesystem probe, passed in as a flag. -/
def relative_image_path (rel_parts : List Str) (png_exists : Bool)
    (prefix_to_site : Str) : Option Str :=
  if png_exists then
    some (prefix_to_site ++ "../models/".data ++ asPosix (withSuffix rel_parts (".png".data)))
  else none

/-- The per-model body of `main`: derive title, link prefixes, screenshot
path, run URL and output path for one model, and render its page.  The
documentation HTML is produced by the external `markdown` library, so it is
taken as an input (`info_html`); nothing proved here depends on it.
Returns (site-relative output path, page text, tree link path). -/
def process_model (rel_parts : List Str) (png_exists : Bool) (info_html : Str) :
    Str × Str × Str :=
  let title := pathStem (rel_parts.getLast! )
  let depth := rel_parts.length
  let prefix_to_site := (List.replicate depth ("../".data)).flatten
  let stylesheet_href := prefix_to_site ++ "styles.css".data
  let back_href := prefix_to_site ++ "index.html".data
  let image_src := relative_image_path rel_parts png_exists prefix_to_site
  let out_rel := "models/".data ++ asPosix (withSuffix rel_parts (".html".data))
  let page := render_model_page title (asPosix rel_parts) info_html image_src
      stylesheet_href back_href (netlogoweb_url (asPosix rel_parts))
  (out_rel, page, out_rel)

example : asPosix ["ab".data, "cd".data] = "ab/cd".data := by decide
example : pathStem ("Wolf Sheep.nlogox".data) = "Wolf Sheep".data := by decide
example : withSuffix ["a".data, "b.nlogox".data] (".png".data) = ["a".data, "b.png".data] := by
  decide
example : netlogoweb_url ("A B".data) =
    ("https://netlogoweb.org/launch#https://netlogoweb.org/assets/modelslib/A%20B".data) := by
  decide

/-! ## UTF-8 decoding as performed by `model_path.read_text`

`extract_info` reads the file with `read_text(encoding="utf-8",
errors="ignore")`.  We model CPython's incremental UTF-8 decoder as a
byte-at-a-time state machine emitting a token per decoded character or per
invalid maximal subpart; the error handler then drops (`ignore`) or
substitutes U+FFFD (`replace`) per error token.  By construction decoding is
total: no input can make it fail. -/

/-- Decoder token: one decoded character, or one invalid byte sequence. -/
inductive U8Tok where
  | chr (c : Char)
  | err
deriving DecidableEq

/-- Mid-sequence decoder state: `need` continuation bytes remain, `acc` is
the accumulated code point, the next byte must lie in `[lo, hi]`. -/
structure U8St where
  need : Nat
  acc : Nat
  lo : Nat
  hi : Nat
deriving DecidableEq

/-- Start decoding at byte `b`: an ASCII character, a one-byte error, or
the beginning of a multi-byte sequence (with the range restrictions of
RFC 3629 on the first continuation byte, which CPython enforces). -/
def u8Begin (b : Nat) : List U8Tok × Option U8St :=
  if b < 0x80 then ([U8Tok.chr (Char.ofNat b)], none)
  else if b < 0xC2 then ([U8Tok.err], none)
  else if b < 0xE0 then ([], some ⟨1, b - 0xC0, 0x80, 0xBF⟩)
  else if b < 0xF0 then
    ([], some ⟨2, b - 0xE0, if b = 0xE0 then 0xA0 else 0x80, if b = 0xED then 0x9F else 0xBF⟩)
  else if b < 0xF5 then
    ([], some ⟨3, b - 0xF0, if b = 0xF0 then 0x90 else 0x80, if b = 0xF4 then 0x8F else 0xBF⟩)
  else ([U8Tok.err], none)

/-- One byte step.  An offending byte ends the current sequence as an error
(the maximal-subpart rule) and is then reconsidered as a fresh start. -/
def u8Step : Option U8St → Nat → List U8Tok × Option U8St
  | none, b => u8Begin b
  | some st, b =>
    if st.lo ≤ b ∧ b ≤ st.hi then
      if st.need = 1 then ([U8Tok.chr (Char.ofNat (st.acc * 64 + (b - 0x80)))], none)
      else ([], some ⟨st.need - 1, st.acc * 64 + (b - 0x80), 0x80, 0xBF⟩)
    else ([U8Tok.err] ++ (u8Begin b).1, (u8Begin b).2)

/-- Run the decoder over all bytes; a truncated trailing sequence is one
more error token. -/
def u8Run : Option U8St → List Nat → List U8Tok
  | st, [] => (match st with | none => [] | some _ => [U8Tok.err])
  | st, b :: rest => (u8Step st b).1 ++ u8Run (u8Step st b).2 rest

/-- Decode a byte string the way `bytes.decode("utf-8", errors=...)` does:
`replaceErrors = false` is `errors="ignore"` (drop each invalid subpart),
`true` is `errors="replace"` (one U+FFFD per invalid subpart). -/
def pyDecodeUtf8 (replaceErrors : Bool) (bs : List Nat) : Str :=
  (u8Run none bs).flatMap fun t =>
    match t with
    | U8Tok.chr c => [c]
    | U8Tok.err => if replaceErrors then [Char.ofNat 0xFFFD] else []

/-- `model_path.read_text(encoding="utf-8", errors="ignore")` as called by
`extract_info`. -/
def read_text_ignore (bs : List Nat) : Str := pyDecodeUtf8 false bs

/-- `extract_info` on the raw bytes of a model file: decode with
`errors="ignore"`, then search for the documentation block. -/
def extract_info_bytes (bs : List Nat) : Str := extract_info (read_text_ignore bs)

example : read_text_ignore [0x61, 0xC3, 0xA9, 0x62] = ['a', 'é', 'b'] := by decide
example : read_text_ignore [0x61, 0xFF, 0x62] = ['a', 'b'] := by decide
example : pyDecodeUtf8 true [0x61, 0xFF, 0x62] = ['a', Char.ofNat 0xFFFD, 'b'] := by decide
example : read_text_ignore [0xE1, 0x80, 0x41] = ['A'] := by decide

/-! ## The folder tree

Python represents the tree as nested dicts: each node optionally has a
`"children"` key (an insertion-ordered dict from folder name to subtree)
and a `"files"` key (a list of `{name, path}` records).  We embed a node as
an association list of children in dict (insertion) order plus the list of
files in append order; absent keys are the empty list. -/

inductive JTree where
  | node : List (Str × JTree) → List (Str × Str) → JTree

/-- The `"children"` dict of a node (empty when the key is absent). -/
def JTree.children : JTree → List (Str × JTree)
  | .node ch _ => ch

/-- The `"files"` list of a node (empty when the key is absent). -/
def JTree.files : JTree → List (Str × Str)
  | .node _ fs => fs

/-- The empty dict `{}` that `main` starts from. -/
def emptyTree : JTree := .node [] []

/-- First-match association-list lookup (Python dict indexing; keys of a
dict are unique, so first match is the match). -/
def lookupA (k : Str) : List (Str × JTree) → Option JTree
  | [] => none
  | p :: t => if p.1 = k then some p.2 else lookupA k t

/-- Replace the value at an existing key in place, or append a new binding:
exactly how assignment to `children[folder]` behaves on an
insertion-ordered Python dict. -/
def updA (k : Str) (v : JTree) : List (Str × JTree) → List (Str × JTree)
  | [] => [(k, v)]
  | p :: t => if p.1 = k then (p.1, v) :: t else p :: updA k v t

/-- `add_to_tree` from `build_static.py`.  A one-element `parts` list
appends a `{name, path}` record to this node's files; otherwise the head
segment selects (or creates) a child folder and the rest is inserted there.
The source never calls it with an empty `parts` (an empty list would raise
`IndexError` on `parts[0]`); the `[]` equation below is unreachable and
returns the tree unchanged. -/
def add_to_tree : JTree → List Str → Str → JTree
  | t, [], _ => t
  | .node ch fs, [name], path => .node ch (fs ++ [(name, path)])
  | .node ch fs, folder :: p :: rest, path =>
    let sub := match lookupA folder ch with
      | some s => s
      | none => emptyTree
    .node (updA folder (add_to_tree sub (p :: rest) path) ch) fs

/-- Fold a list of `(parts, path)` entries into the shared tree, as the
loop in `main` does. -/
def buildTree (entries : List (List Str × Str)) : JTree :=
  entries.foldl (fun t e => add_to_tree t e.1 e.2) emptyTree

/-! ## Rendering the tree

`render_tree` sorts child folders and files with Python's stable `sorted`
under the key `item[0].lower()` / `item["name"].lower()`.  A stable sort's
output is uniquely determined by the comparison relation and the input
order, so `List.insertionSort` (also stable) with the non-strict relation
"lowercased key is ≤" models `sorted` exactly. -/

/-- Sort relation for child folders: case-insensitive lexicographic
comparison of folder names. -/
def folderLe (a b : Str × JTree) : Prop := lowStr a.1 ≤ lowStr b.1

/-- Sort relation for files: case-insensitive lexicographic comparison of
file names. -/
def fileLe (a b : Str × Str) : Prop := lowStr a.1 ≤ lowStr b.1

instance : DecidableRel folderLe :=
  fun a b => inferInstanceAs (Decidable (lowStr a.1 ≤ lowStr b.1))

instance : DecidableRel fileLe :=
  fun a b => inferInstanceAs (Decidable (lowStr a.1 ≤ lowStr b.1))

instance : IsTotal (Str × JTree) folderLe := ⟨fun a b => le_total (lowStr a.1) (lowStr b.1)⟩
instance : IsTrans (Str × JTree) folderLe := ⟨fun _ _ _ h1 h2 => le_trans h1 h2⟩
instance : IsTotal (Str × Str) fileLe := ⟨fun a b => le_total (lowStr a.1) (lowStr b.1)⟩
instance : IsTrans (Str × Str) fileLe := ⟨fun _ _ _ h1 h2 => le_trans h1 h2⟩

/-- The sorted folder list a node is rendered from. -/
def sortedFolders (t : JTree) : List (Str × JTree) := t.children.insertionSort folderLe

/-- The sorted file list a node is rendered from. -/
def sortedFiles (t : JTree) : List (Str × Str) := t.files.insertionSort fileLe

/-- Python `file_item["name"].replace(".nlogox", "")`: remove every
(non-overlapping, left-to-right) occurrence of `.nlogox`. -/
def stripNlogox : Str → Str
  | [] => []
  | c :: t =>
    if c = '.' ∧ ['n', 'l', 'o', 'g', 'o', 'x'] <+: t then stripNlogox (t.drop 6)
    else c :: stripNlogox t
termination_by s => s.length
decreasing_by
  all_goals simp only [List.length_drop, List.length_cons]
  all_goals omega

/-- The `<li>` rendered for one file entry: the href is the stored output
path (HTML-escaped for embedding) and the display text is the name with the
`.nlogox` extension removed. -/
def fileChunk (fi : Str × Str) : Str :=
  "<li><a href=\"".data ++ htmlEscape fi.2
    ++ "\" target=\"_blank\" rel=\"noopener\">".data
    ++ "<img class=\"icon file-icon\" src=\"assets/model.png\" alt=\"\" />".data
    ++ htmlEscape (stripNlogox fi.1) ++ "</a></li>".data

/-- The opening `<li><details>` line rendered for one folder. -/
def folderSummary (open_attr name : Str) : Str :=
  "<li><details".data ++ open_attr
    ++ "><summary><span class=\"icon folder\">📁</span>".data
    ++ htmlEscape name ++ "</summary>".data

/-- `render_tree` from `build_static.py` (`pfx` is the source's `prefix`
parameter, renamed; it only accumulates into recursive calls and never
reaches the output).  Folders are emitted first, then files, each sorted
case-insensitively; the pieces are joined with newlines. -/
def render_tree (t : JTree) (pfx : Str) (open_root : Bool) : Str :=
  match t with
  | .node ch fs =>
    let open_attr : Str := if open_root then " open".data else []
    let parts : List Str :=
      ["<ul>".data]
      ++ (ch.insertionSort folderLe).attach.flatMap (fun x =>
          [folderSummary open_attr x.1.1,
           render_tree x.1.2 (pfx ++ x.1.1 ++ "/".data) false,
           "</details></li>".data])
      ++ (fs.insertionSort fileLe).map fileChunk
      ++ ["</ul>".data]
    List.intercalate ("\n".data) parts
termination_by sizeOf t
decreasing_by
  rename_i hmem
  have h1 : x.1 ∈ ch := (List.mem_insertionSort folderLe).1 x.2
  have h2 := List.sizeOf_lt_of_mem h1
  simp only [Prod.mk.sizeOf_spec] at h2
  cases hx : x.1 with
  | mk a b =>
    simp [hx] at h2 ⊢
    omega

/-- The block of lines a folder entry contributes (summary line, recursive
subtree, closing line). -/
def folderBlock (pfx : Str) (open_root : Bool) (kv : Str × JTree) : List Str :=
  [folderSummary (if open_root then " open".data else []) kv.1,
   render_tree kv.2 (pfx ++ kv.1 ++ "/".data) false,
   "</details></li>".data]

/-- Unfolding equation for `render_tree` without `attach`. -/
theorem render_tree_node (ch : List (Str × JTree)) (fs : List (Str × Str))
    (pfx : Str) (open_root : Bool) :
    render_tree (.node ch fs) pfx open_root =
      List.intercalate ("\n".data)
        (["<ul>".data]
          ++ (ch.insertionSort folderLe).flatMap (folderBlock pfx open_root)
          ++ (fs.insertionSort fileLe).map fileChunk
          ++ ["</ul>".data]) := by
  rw [render_tree]
  simp only [List.flatMap, folderBlock]
  rw [List.attach_map_val (ch.insertionSort folderLe)
    (fun kv => [folderSummary (if open_root then " open".data else []) kv.1,
      render_tree kv.2 (pfx ++ kv.1 ++ "/".data) false, "</details></li>".data])]
  rfl

/-! ## Lemmas about the delimiter search -/

/-- `isPreCI` succeeds on the pattern itself followed by anything. -/
theorem isPreCI_append_self (p r : Str) : isPreCI p (p ++ r) = true := by
  induction p with
  | nil => rfl
  | cons c cs ih => simp [isPreCI, ih]

/-- A nonempty pattern can only match inside the text. -/
theorem matchesAt_lt_length {p : Char} {ps s : Str} {i : Nat}
    (h : matchesAt (p :: ps) s i = true) : i < s.length := by
  by_contra hge
  have hnil : s.drop i = [] := List.drop_eq_nil_of_le (by omega)
  rw [matchesAt, hnil] at h
  simp [isPreCI] at h

/-- If the pattern matches at `n` and nowhere earlier, `findCI` returns `n`. -/
theorem findCI_eq_some {pat : Str} : ∀ {s : Str} {n : Nat},
    matchesAt pat s n = true → (∀ k < n, matchesAt pat s k = false) →
    findCI pat s = some n := by
  intro s
  induction s with
  | nil =>
    intro n hm hmin
    match n with
    | 0 => simp [findCI, matchesAt] at hm ⊢; exact hm
    | m + 1 =>
      exfalso
      have h0 := hmin 0 (by omega)
      rw [matchesAt] at h0 hm
      simp only [List.drop_nil] at h0 hm
      rw [h0] at hm
      simp at hm
  | cons c t ih =>
    intro n hm hmin
    match n with
    | 0 =>
      rw [matchesAt, List.drop_zero] at hm
      simp [findCI, hm]
    | m + 1 =>
      have h0 := hmin 0 (by omega)
      rw [matchesAt, List.drop_zero] at h0
      have ht : findCI pat t = some m := by
        apply ih
        · rw [matchesAt] at hm ⊢
          simpa using hm
        · intro k hk
          have := hmin (k + 1) (by omega)
          rw [matchesAt] at this ⊢
          simpa using this
      simp [findCI, h0, ht]

/-- If `findCI` finds an occurrence, the pattern indeed matches there. -/
theorem findCI_some_matches {pat : Str} : ∀ {s : Str} {n : Nat},
    findCI pat s = some n → matchesAt pat s n = true := by
  intro s
  induction s with
  | nil =>
    intro n h
    rw [findCI] at h
    split at h
    · rename_i hp
      cases h
      rw [matchesAt]
      simpa using hp
    · cases h
  | cons c t ih =>
    intro n h
    rw [findCI] at h
    split at h
    · rename_i hp
      cases h
      rw [matchesAt, List.drop_zero]
      exact hp
    · match hfind : findCI pat t with
      | none => rw [hfind] at h; cases h
      | some m =>
        rw [hfind] at h
        simp at h
        subst h
        have := ih hfind
        rw [matchesAt] at this ⊢
        simpa using this

/-- C1: for every model file whose text contains a well-formed documentation
delimiter pair, `extract_info` returns exactly the inner text of the first
occurrence of the delimiter pair (matched case-insensitively, spanning
newlines) with leading and trailing whitespace trimmed, regardless of any
content before, between, or after the delimiters.  The two hypotheses say
precisely that the pair starting at `pre.length` is the first: no
(case-insensitive) opening delimiter occurs earlier, and no closing
delimiter occurs inside `inner`. -/
theorem c1_extract_info_first_pair (pre inner post : Str)
    (hpre : ∀ k < pre.length,
      matchesAt openDelim (pre ++ openDelim ++ inner ++ closeDelim ++ post) k = false)
    (hin : ∀ k < inner.length,
      matchesAt closeDelim (inner ++ closeDelim ++ post) k = false) :
    extract_info (pre ++ openDelim ++ inner ++ closeDelim ++ post) = pyStrip inner := by
  have hmatch : matchesAt openDelim
      (pre ++ openDelim ++ inner ++ closeDelim ++ post) pre.length = true := by
    rw [matchesAt, show pre ++ openDelim ++ inner ++ closeDelim ++ post
      = pre ++ (openDelim ++ (inner ++ (closeDelim ++ post))) by simp [List.append_assoc],
      List.drop_left]
    rw [show openDelim ++ (inner ++ (closeDelim ++ post))
      = openDelim ++ (inner ++ (closeDelim ++ post)) from rfl]
    exact isPreCI_append_self _ _
  have hfind1 : findCI openDelim (pre ++ openDelim ++ inner ++ closeDelim ++ post)
      = some pre.length := findCI_eq_some hmatch hpre
  have hdrop : (pre ++ openDelim ++ inner ++ closeDelim ++ post).drop
      (pre.length + openDelim.length) = inner ++ closeDelim ++ post := by
    rw [show pre ++ openDelim ++ inner ++ closeDelim ++ post
      = (pre ++ openDelim) ++ (inner ++ closeDelim ++ post) by simp [List.append_assoc]]
    have h2 := List.drop_left (pre ++ openDelim) (inner ++ closeDelim ++ post)
    rwa [List.length_append] at h2
  have hmatch2 : matchesAt closeDelim (inner ++ closeDelim ++ post) inner.length = true := by
    rw [matchesAt, show inner ++ closeDelim ++ post
      = inner ++ (closeDelim ++ post) by simp [List.append_assoc], List.drop_left]
    exact isPreCI_append_self _ _
  have hfind2 : findCI closeDelim (inner ++ closeDelim ++ post) = some inner.length :=
    findCI_eq_some hmatch2 hin
  rw [extract_info, hfind1]
  simp only [hdrop, hfind2]
  rw [show inner ++ closeDelim ++ post = inner ++ (closeDelim ++ post) by
    simp [List.append_assoc], List.take_left]

/-- Witness for C1 at a concrete input: text
`ab<info><![CDATA[ # hi ]]></info>z` yields the trimmed inner text `# hi`. -/
theorem c1_witness :
    extract_info (("ab".data) ++ openDelim ++ (" # hi ".data) ++ closeDelim ++ ("z".data))
      = pyStrip (" # hi ".data) :=
  c1_extract_info_first_pair ("ab".data) (" # hi ".data) ("z".data)
    (by decide) (by decide)

/-- C2: if a text has no documentation delimiter pair (no case-insensitive
opening-delimiter match followed, at or after the end of the opening
delimiter, by a closing-delimiter match), `extract_info` returns the empty
string rather than failing; and a page rendered with empty documentation
HTML contains the fixed placeholder paragraph inside the (therefore
non-empty) documentation container `tpl7 … tpl8`. -/
theorem c2_no_pair_empty_and_placeholder :
    (∀ text : Str,
      (∀ i < text.length, ∀ j < text.length,
        matchesAt openDelim text i = true → matchesAt closeDelim text j = true →
        j < i + openDelim.length) →
      extract_info text = []) ∧
    (∀ (title model_rel stylesheet_href back_href netlogo_url : Str)
        (image_src : Option Str),
      ∃ a : Str,
        render_model_page title model_rel [] image_src stylesheet_href back_href netlogo_url
          = a ++ (tpl7 ++ noInfoPlaceholder ++ tpl8)) := by
  constructor
  · intro text hno
    cases h1 : findCI openDelim text with
    | none => simp [extract_info, h1]
    | some i =>
      cases h2 : findCI closeDelim (text.drop (i + openDelim.length)) with
      | none => simp [extract_info, h1, h2]
      | some j =>
        exfalso
        have hmi := findCI_some_matches h1
        have hmj := findCI_some_matches h2
        have hmj2 : matchesAt closeDelim text (j + (i + openDelim.length)) = true := by
          rw [matchesAt] at hmj ⊢
          rw [List.drop_drop] at hmj
          rwa [show j + (i + openDelim.length) = i + openDelim.length + j by omega]
        have hi_lt : i < text.length := by
          have : matchesAt ('<' :: ("info><![CDATA[".data)) text i = true := hmi
          exact matchesAt_lt_length this
        have hj_lt : j + (i + openDelim.length) < text.length := by
          have : matchesAt (']' :: ("]></info>".data)) text (j + (i + openDelim.length))
              = true := hmj2
          exact matchesAt_lt_length this
        have := hno i hi_lt (j + (i + openDelim.length)) hj_lt hmi hmj2
        omega
  · intro title model_rel stylesheet_href back_href netlogo_url image_src
    refine ⟨tpl1 ++ htmlEscape title ++ tpl2 ++ htmlEscape stylesheet_href ++ tpl3
      ++ htmlEscape back_href ++ tpl4 ++ htmlEscape title ++ tpl5
      ++ htmlEscape netlogo_url ++ tpl6 ++ imageHtml image_src (htmlEscape title), ?_⟩
    simp [render_model_page, List.append_assoc]

/-- Witness for C2: `hello` has no delimiter pair and extracts to the empty
string, and a concrete page rendered with empty documentation contains the
placeholder inside the documentation container. -/
theorem c2_witness :
    extract_info ("hello".data) = [] ∧
    ∃ a : Str,
      render_model_page ("T".data) ("T.nlogox".data) [] none ("../styles.css".data)
          ("../index.html".data) ("u".data)
        = a ++ (tpl7 ++ noInfoPlaceholder ++ tpl8) :=
  ⟨c2_no_pair_empty_and_placeholder.1 ("hello".data) (by decide),
   c2_no_pair_empty_and_placeholder.2 ("T".data) ("T.nlogox".data) ("../styles.css".data)
     ("../index.html".data) ("u".data) none⟩

/-! ## Escaping round-trips -/

theorem htmlEscape_cons (c : Char) (t : Str) :
    htmlEscape (c :: t) = escapeChar c ++ htmlEscape t := by
  simp [htmlEscape]

theorem unescape_ent_amp (t : Str) :
    unescapeHtml ('&' :: 'a' :: 'm' :: 'p' :: ';' :: t) = '&' :: unescapeHtml t := by
  rw [unescapeHtml]
  simp [List.cons_prefix_cons]

theorem unescape_ent_lt (t : Str) :
    unescapeHtml ('&' :: 'l' :: 't' :: ';' :: t) = '<' :: unescapeHtml t := by
  rw [unescapeHtml]
  simp [List.cons_prefix_cons]

theorem unescape_ent_gt (t : Str) :
    unescapeHtml ('&' :: 'g' :: 't' :: ';' :: t) = '>' :: unescapeHtml t := by
  rw [unescapeHtml]
  simp [List.cons_prefix_cons]

theorem unescape_ent_quot (t : Str) :
    unescapeHtml ('&' :: 'q' :: 'u' :: 'o' :: 't' :: ';' :: t) = '"' :: unescapeHtml t := by
  rw [unescapeHtml]
  simp [List.cons_prefix_cons]

theorem unescape_ent_apos (t : Str) :
    unescapeHtml ('&' :: '#' :: 'x' :: '2' :: '7' :: ';' :: t) = '\'' :: unescapeHtml t := by
  rw [unescapeHtml]
  simp [List.cons_prefix_cons]

theorem unescape_other (c : Char) (t : Str) (h : c ≠ '&') :
    unescapeHtml (c :: t) = c :: unescapeHtml t := by
  rw [unescapeHtml]
  simp [h]

/-- `html.unescape` recovers the original string from `html.escape`'s
output: escaping loses no information. -/
theorem unescape_escape (s : Str) : unescapeHtml (htmlEscape s) = s := by
  induction s with
  | nil =>
    rw [show htmlEscape [] = [] from by simp [htmlEscape], unescapeHtml]
  | cons c t ih =>
    rw [htmlEscape_cons]
    by_cases h1 : c = '&'
    · subst h1
      rw [show escapeChar '&' = ['&', 'a', 'm', 'p', ';'] from by decide]
      simp only [List.cons_append, List.nil_append]
      rw [unescape_ent_amp, ih]
    by_cases h2 : c = '<'
    · subst h2
      rw [show escapeChar '<' = ['&', 'l', 't', ';'] from by decide]
      simp only [List.cons_append, List.nil_append]
      rw [unescape_ent_lt, ih]
    by_cases h3 : c = '>'
    · subst h3
      rw [show escapeChar '>' = ['&', 'g', 't', ';'] from by decide]
      simp only [List.cons_append, List.nil_append]
      rw [unescape_ent_gt, ih]
    by_cases h4 : c = '"'
    · subst h4
      rw [show escapeChar '"' = ['&', 'q', 'u', 'o', 't', ';'] from by decide]
      simp only [List.cons_append, List.nil_append]
      rw [unescape_ent_quot, ih]
    by_cases h5 : c = '\''
    · subst h5
      rw [show escapeChar '\'' = ['&', '#', 'x', '2', '7', ';'] from by decide]
      simp only [List.cons_append, List.nil_append]
      rw [unescape_ent_apos, ih]
    have he : escapeChar c = [c] := by simp [escapeChar, h1, h2, h3, h4, h5]
    rw [he, List.singleton_append, unescape_other c _ h1, ih]

/-- C4: every interpolation of the title and of the href/src values
(stylesheet, back link, run URL, image source) into the page goes through
`html.escape` — the page is exactly the fixed template chunks with the
escaped strings in between — and escaping round-trips: unescaping an
escaped string yields the original string for every input. -/
theorem c4_escaping_roundtrip_and_interpolation :
    (∀ s : Str, unescapeHtml (htmlEscape s) = s) ∧
    (∀ (title model_rel info_html : Str) (image_src : Option Str)
        (stylesheet_href back_href netlogo_url : Str),
      render_model_page title model_rel info_html image_src stylesheet_href back_href
          netlogo_url
        = tpl1 ++ htmlEscape title ++ tpl2 ++ htmlEscape stylesheet_href ++ tpl3
          ++ htmlEscape back_href ++ tpl4 ++ htmlEscape title ++ tpl5
          ++ htmlEscape netlogo_url ++ tpl6 ++ imageHtml image_src (htmlEscape title)
          ++ tpl7 ++ (if info_html = [] then noInfoPlaceholder else info_html) ++ tpl8) ∧
    (∀ src escaped_title : Str,
      imageHtml (some src) escaped_title
        = imgTplA ++ htmlEscape src ++ imgTplB ++ escaped_title ++ imgTplC) :=
  ⟨unescape_escape, fun _ _ _ _ _ _ _ => rfl, fun _ _ => rfl⟩

/-! ## Decoding lemmas for C3 -/

theorem u8Step_ascii {b : Nat} (hb : b < 128) :
    u8Step none b = ([U8Tok.chr (Char.ofNat b)], none) := by
  simp [u8Step, u8Begin, hb]

theorem u8Step_invalid {b : Nat} (hb : 0xF5 ≤ b) :
    u8Step none b = ([U8Tok.err], none) := by
  have h1 : ¬ b < 0x80 := by omega
  have h2 : ¬ b < 0xC2 := by omega
  have h3 : ¬ b < 0xE0 := by omega
  have h4 : ¬ b < 0xF0 := by omega
  have h5 : ¬ b < 0xF5 := by omega
  simp [u8Step, u8Begin, h1, h2, h3, h4, h5]

/-- Decoding an all-ASCII run emits one character token per byte and leaves
the decoder in the ground state for the rest. -/
theorem u8Run_ascii_append (pre : List Nat) (hpre : ∀ x ∈ pre, x < 128) (rest : List Nat) :
    u8Run none (pre ++ rest)
      = pre.map (fun b => U8Tok.chr (Char.ofNat b)) ++ u8Run none rest := by
  induction pre with
  | nil => simp
  | cons a t ih =>
    have ha : a < 128 := hpre a (List.mem_cons_self a t)
    rw [List.cons_append, u8Run, u8Step_ascii ha]
    simp only [List.map_cons, List.cons_append, List.nil_append]
    rw [ih (fun x hx => hpre x (List.mem_cons_of_mem a hx))]

/-- A char of code point below 128 keeps its code point through
`Char.ofNat`. -/
theorem char_toNat_ofNat_lt {x : Nat} (h : x < 128) : (Char.ofNat x).toNat = x := by
  have hv : x.isValidChar := Or.inl (by omega)
  rw [Char.ofNat, dif_pos hv]
  rfl

/-- C3 as corrected: decoding is total by construction (no input raises),
and an undecodable byte between ASCII text is dropped by `errors="ignore"`
— the decoded text is as if the byte were absent, no replacement character
is substituted — so `extract_info` sees the same text with the byte
removed. -/
theorem c3_ignore_drops_undecodable_byte (pre post : List Nat) (b : Nat)
    (hpre : ∀ x ∈ pre, x < 128) (hpost : ∀ x ∈ post, x < 128) (hb : 0xF5 ≤ b) :
    read_text_ignore (pre ++ b :: post) = read_text_ignore (pre ++ post) ∧
    Char.ofNat 0xFFFD ∉ read_text_ignore (pre ++ b :: post) ∧
    extract_info_bytes (pre ++ b :: post) = extract_info_bytes (pre ++ post) := by
  have h1 : u8Run none (pre ++ b :: post)
      = pre.map (fun x => U8Tok.chr (Char.ofNat x)) ++ ([U8Tok.err] ++ u8Run none post) := by
    rw [u8Run_ascii_append pre hpre, u8Run, u8Step_invalid hb]
  have h2 : u8Run none (pre ++ post)
      = pre.map (fun x => U8Tok.chr (Char.ofNat x)) ++ u8Run none post := by
    rw [u8Run_ascii_append pre hpre]
  have h3 : u8Run none post = post.map (fun x => U8Tok.chr (Char.ofNat x)) := by
    have h := u8Run_ascii_append post hpost []
    rw [List.append_nil] at h
    rw [h, u8Run, List.append_nil]
  have hmain : read_text_ignore (pre ++ b :: post) = read_text_ignore (pre ++ post) := by
    rw [read_text_ignore, read_text_ignore, pyDecodeUtf8, pyDecodeUtf8, h1, h2]
    simp [List.flatMap_append]
  refine ⟨hmain, ?_, by rw [extract_info_bytes, extract_info_bytes, hmain]⟩
  rw [read_text_ignore, pyDecodeUtf8, h1, h3]
  intro hmem
  rw [List.flatMap_append, List.flatMap_append] at hmem
  have hchar : ∀ (l : List Nat), (∀ x ∈ l, x < 128) →
      Char.ofNat 0xFFFD ∉ (l.map (fun x => U8Tok.chr (Char.ofNat x))).flatMap
        (fun t => match t with
          | U8Tok.chr c => [c]
          | U8Tok.err => if false = true then [Char.ofNat 0xFFFD] else []) := by
    intro l hl hin
    rw [List.mem_flatMap] at hin
    obtain ⟨tok, htok, hc⟩ := hin
    obtain ⟨x, hxmem, rfl⟩ := List.mem_map.1 htok
    simp only [List.mem_singleton] at hc
    have hts := congrArg Char.toNat hc
    rw [char_toNat_ofNat_lt (hl x hxmem)] at hts
    rw [show (Char.ofNat 0xFFFD).toNat = 0xFFFD from by decide] at hts
    have := hl x hxmem
    omega
  rcases List.mem_append.1 hmem with hx | hx
  · exact hchar pre hpre hx
  rcases List.mem_append.1 hx with hy | hy
  · simp at hy
  · exact hchar post hpost hy

/-- Counterexample to C3 as stated: the file bytes `0xFF 'a'` decode (as the
code does, with `errors="ignore"`) to just `"a"` — the undecodable byte is
dropped, no replacement character U+FFFD is substituted.  An
`errors="replace"` decode, which is what the claim describes, would give
`"� a"`, a different text. -/
theorem c3_counterexample :
    read_text_ignore [0xFF, 0x61] = ['a'] ∧
    Char.ofNat 0xFFFD ∉ read_text_ignore [0xFF, 0x61] ∧
    pyDecodeUtf8 true [0xFF, 0x61] = [Char.ofNat 0xFFFD, 'a'] ∧
    pyDecodeUtf8 true [0xFF, 0x61] ≠ read_text_ignore [0xFF, 0x61] := by decide

/-- Witness for the corrected C3 at concrete bytes `h 0xFF i`. -/
theorem c3_witness :
    read_text_ignore [0x68, 0xFF, 0x69] = read_text_ignore [0x68, 0x69] ∧
    Char.ofNat 0xFFFD ∉ read_text_ignore [0x68, 0xFF, 0x69] ∧
    extract_info_bytes [0x68, 0xFF, 0x69] = extract_info_bytes [0x68, 0x69] :=
  c3_ignore_drops_undecodable_byte [0x68] [0x69] 0xFF
    (by decide) (by decide) (by decide)

/-- C6: the HTML produced by `render_tree` lists, at every level (the
statement is for every tree, hence for every subtree), first the subfolder
blocks in the order of `sortedFolders` and then the file entries in the
order of `sortedFiles`; and both rendered name sequences are non-decreasing
under case-insensitive lexicographic comparison. -/
theorem c6_folders_first_and_sorted (t : JTree) (pfx : Str) (open_root : Bool) :
    render_tree t pfx open_root
      = List.intercalate ("\n".data)
          (["<ul>".data]
            ++ (sortedFolders t).flatMap (folderBlock pfx open_root)
            ++ (sortedFiles t).map fileChunk
            ++ ["</ul>".data]) ∧
    ((sortedFolders t).map (fun kv => kv.1)).Pairwise (fun a b => lowStr a ≤ lowStr b) ∧
    ((sortedFiles t).map (fun kv => kv.1)).Pairwise (fun a b => lowStr a ≤ lowStr b) := by
  refine ⟨?_, ?_, ?_⟩
  · cases t with
    | node ch fs => exact render_tree_node ch fs pfx open_root
  · have hs : (t.children.insertionSort folderLe).Pairwise folderLe :=
      List.sorted_insertionSort folderLe t.children
    exact List.Pairwise.map _ (fun a b h => h) hs
  · have hs : (t.files.insertionSort fileLe).Pairwise fileLe :=
      List.sorted_insertionSort fileLe t.files
    exact List.Pairwise.map _ (fun a b h => h) hs

/-- Substring test, used to state "the page contains …". -/
def containsStr (pat : Str) : Str → Bool
  | [] => pat.isEmpty
  | s@(_ :: t) => pat.isPrefixOf s || containsStr pat t

example : containsStr ("lo w".data) ("hello world".data) = true := by decide
example : containsStr ("low".data) ("hello world".data) = false := by decide

/-- The C7 scenario: model `Biology/Wolf Sheep.nlogox`, one folder deep,
with a sibling `Wolf Sheep.png` and some documentation HTML. -/
def c7Scenario : Str × Str × Str :=
  process_model ["Biology".data, "Wolf Sheep.nlogox".data] true
    ("<h1>Title</h1>\n<p>Text</p>".data)

set_option maxRecDepth 8192 in
/-- Counterexample to C7 as stated: the generated page does NOT contain an
`<img>` whose src is `../../models/Biology/Wolf Sheep.png`; the code emits
`prefix_to_site ++ "../models/…"`, i.e. three `../` segments, pointing at
the source models directory rather than the site's. -/
theorem c7_counterexample :
    containsStr ("<img src=\"../../models/Biology/Wolf Sheep.png\"".data) c7Scenario.2.1
      = false ∧
    containsStr ("<img src=\"../../../models/Biology/Wolf Sheep.png\"".data) c7Scenario.2.1
      = true := by decide

set_option maxRecDepth 8192 in
/-- C7 as corrected: the page for `Biology/Wolf Sheep.nlogox` is written to
`models/Biology/Wolf Sheep.html` (relative to the site root), its `<img>`
src is `../../../models/Biology/Wolf Sheep.png`, its back link href is
`../../index.html`, and its run URL contains `Biology/Wolf%20Sheep` (spaces
percent-encoded, appended to the fixed base URL). -/
theorem c7_scenario_outputs :
    c7Scenario.1 = "models/Biology/Wolf Sheep.html".data ∧
    containsStr ("<img src=\"../../../models/Biology/Wolf Sheep.png\" alt=\"".data)
      c7Scenario.2.1 = true ∧
    containsStr ("<a class=\"back-link\" href=\"../../index.html\">".data)
      c7Scenario.2.1 = true ∧
    containsStr
      ("href=\"https://netlogoweb.org/launch#https://netlogoweb.org/assets/modelslib/Biology/Wolf%20Sheep.nlogox\"".data)
      c7Scenario.2.1 = true ∧
    containsStr ("Biology/Wolf%20Sheep".data) c7Scenario.2.1 = true := by decide

/-! ## Prefix-splitting lemmas (shared by several claims) -/

/-- A pattern that fits inside the left part of an append is a prefix of
that left part. -/
theorem preOfAppendLeft {p t e : Str} (h : p <+: t ++ e) (hl : p.length ≤ t.length) :
    p <+: t := by
  obtain ⟨r, hr⟩ := h
  have hp : p = t.take p.length := by
    rw [show t.take p.length = (t ++ e).take p.length from
      (List.take_append_of_le_length hl).symm, ← hr, List.take_left]
  rw [hp]
  exact List.take_prefix _ _

/-- A pattern reaching beyond the left part of an append starts with the
left part and continues as a prefix of the right part. -/
theorem preThroughAppend {p t e : Str} (h : p <+: t ++ e) (hl : t.length ≤ p.length) :
    t <+: p ∧ (p.drop t.length) <+: e := by
  obtain ⟨r, hr⟩ := h
  constructor
  · have ht : t = p.take t.length := by
      rw [show p.take t.length = (p ++ r).take t.length from
        (List.take_append_of_le_length hl).symm, hr, List.take_left]
    rw [ht]
    exact List.take_prefix _ _
  · refine ⟨r, ?_⟩
    have he : e = p.drop t.length ++ r := by
      rw [show p.drop t.length ++ r = (p ++ r).drop t.length from
        (List.drop_append_of_le_length hl).symm, hr, List.drop_left]
    exact he.symm

/-! ## Behaviour of the display-name stripping -/

theorem stripNlogox_nil : stripNlogox [] = [] := by rw [stripNlogox]

/-- One full occurrence of `.nlogox` at the head is removed. -/
theorem stripNlogox_ext (t : Str) :
    stripNlogox ('.' :: 'n' :: 'l' :: 'o' :: 'g' :: 'o' :: 'x' :: t) = stripNlogox t := by
  rw [stripNlogox]
  simp [List.cons_prefix_cons]

/-- A head character that does not start an occurrence is kept. -/
theorem stripNlogox_other {c : Char} {t : Str}
    (h : ¬ (c = '.' ∧ ['n', 'l', 'o', 'g', 'o', 'x'] <+: t)) :
    stripNlogox (c :: t) = c :: stripNlogox t := by
  rw [stripNlogox, if_neg h]

/-- Helper for `stripNlogox_append_ext`, by strong induction on length. -/
theorem stripNlogox_append_ext_aux :
    ∀ (n : Nat) (a : Str), a.length ≤ n →
      stripNlogox (a ++ ['.', 'n', 'l', 'o', 'g', 'o', 'x']) = stripNlogox a := by
  intro n
  induction n with
  | zero =>
    intro a ha
    have hnil : a = [] := List.eq_nil_of_length_eq_zero (Nat.le_zero.1 ha)
    subst hnil
    rw [List.nil_append]
    exact stripNlogox_ext []
  | succ n ih =>
    intro a ha
    match a with
    | [] =>
      rw [List.nil_append]
      exact stripNlogox_ext []
    | c :: t =>
      by_cases hc : c = '.' ∧ ['n', 'l', 'o', 'g', 'o', 'x'] <+: t
      · obtain ⟨hcd, hpre⟩ := hc
        obtain ⟨u, hu⟩ := hpre
        subst hcd
        rw [← hu]
        simp only [List.cons_append, List.append_assoc, List.nil_append]
        rw [stripNlogox_ext, stripNlogox_ext]
        apply ih
        have : t.length ≤ n := by
          simp only [List.length_cons] at ha
          omega
        rw [← hu] at this
        simp only [List.length_append] at this
        simp only [List.length_cons, List.length_nil] at this
        omega
      · have hc2 : ¬ (c = '.' ∧
            ['n', 'l', 'o', 'g', 'o', 'x'] <+: (t ++ ['.', 'n', 'l', 'o', 'g', 'o', 'x'])) := by
          intro hcon
          apply hc
          refine ⟨hcon.1, ?_⟩
          by_cases hlen : 6 ≤ t.length
          · exact preOfAppendLeft hcon.2 (by simpa using hlen)
          · exfalso
            have hlt : t.length < 6 := by omega
            obtain ⟨hp, hdrop⟩ := preThroughAppend hcon.2 (by simp; omega)
            set k := t.length with hk
            interval_cases k <;> simp [List.cons_prefix_cons] at hdrop
        rw [List.cons_append, stripNlogox_other hc2, stripNlogox_other hc]
        have ht : t.length ≤ n := by
          simp only [List.length_cons] at ha
          omega
        rw [ih t ht]

/-- Appending the `.nlogox` extension to any name never survives the
display stripping: the trailing extension is always removed. -/
theorem stripNlogox_append_ext (a : Str) :
    stripNlogox (a ++ ['.', 'n', 'l', 'o', 'g', 'o', 'x']) = stripNlogox a :=
  stripNlogox_append_ext_aux a.length a (Nat.le_refl _)

/-- Counterexample to C9 as stated: for the leaf name `a.nlogox.nlogox`
(which ends in the source extension), `render_tree`'s display name is `a` —
Python's `str.replace(".nlogox", "")` removed the inner occurrence as well —
not `a.nlogox` as "loses exactly that trailing extension and nothing else"
would require. -/
theorem c9_counterexample :
    stripNlogox ("a.nlogox.nlogox".data) = "a".data ∧
    fileChunk ("a.nlogox.nlogox".data, "p".data)
      = ("<li><a href=\"p\" target=\"_blank\" rel=\"noopener\">"
          ++ "<img class=\"icon file-icon\" src=\"assets/model.png\" alt=\"\" />"
          ++ "a</a></li>").data ∧
    ("a".data : Str) ≠ "a.nlogox".data := by
  have hstrip : stripNlogox ("a.nlogox.nlogox".data) = "a".data := by
    rw [show "a.nlogox.nlogox".data
      = 'a' :: ('.' :: 'n' :: 'l' :: 'o' :: 'g' :: 'o' :: 'x'
        :: ('.' :: 'n' :: 'l' :: 'o' :: 'g' :: 'o' :: 'x' :: [])) from rfl]
    rw [stripNlogox_other (by simp), stripNlogox_ext, stripNlogox_ext, stripNlogox_nil]
  refine ⟨hstrip, ?_, by decide⟩
  show "<li><a href=\"".data ++ htmlEscape ("p".data)
      ++ "\" target=\"_blank\" rel=\"noopener\">".data
      ++ "<img class=\"icon file-icon\" src=\"assets/model.png\" alt=\"\" />".data
      ++ htmlEscape (stripNlogox ("a.nlogox.nlogox".data)) ++ "</a></li>".data = _
  rw [hstrip]
  decide

/-- C9 as corrected: the `<li>` rendered for a leaf file links to the
stored output path — the href is the stored path HTML-escaped for attribute
embedding, and unescaping recovers exactly the stored path — while the
display text is the file's name with every occurrence of `.nlogox` removed
(Python `str.replace` removes all occurrences, not only a trailing
extension); in particular a trailing `.nlogox` extension never survives. -/
theorem c9_file_entry_display_and_href (name path : Str) :
    fileChunk (name, path)
      = "<li><a href=\"".data ++ htmlEscape path
        ++ "\" target=\"_blank\" rel=\"noopener\">".data
        ++ "<img class=\"icon file-icon\" src=\"assets/model.png\" alt=\"\" />".data
        ++ htmlEscape (stripNlogox name) ++ "</a></li>".data ∧
    unescapeHtml (htmlEscape path) = path ∧
    stripNlogox (name ++ (".nlogox".data)) = stripNlogox name :=
  ⟨rfl, unescape_escape path, by
    rw [show (".nlogox".data) = ['.', 'n', 'l', 'o', 'g', 'o', 'x'] from rfl]
    exact stripNlogox_append_ext name⟩

/-! ## Addressing into the tree, for the frame property of `add_to_tree` -/

/-- The subtree at a folder address (chain of `children` lookups). -/
def subtreeAt (t : JTree) : List Str → Option JTree
  | [] => some t
  | k :: q =>
    match lookupA k t.children with
    | none => none
    | some s => subtreeAt s q

/-- The files list at a folder address (empty when the node is absent). -/
def filesAt (t : JTree) (q : List Str) : List (Str × Str) :=
  match subtreeAt t q with
  | none => []
  | some s => s.files

/-- The child-folder names at a folder address (empty when absent). -/
def childKeysAt (t : JTree) (q : List Str) : List Str :=
  match subtreeAt t q with
  | none => []
  | some s => s.children.map (fun p => p.1)

theorem lookupA_updA_self (k : Str) (v : JTree) (ch : List (Str × JTree)) :
    lookupA k (updA k v ch) = some v := by
  induction ch with
  | nil => simp [updA, lookupA]
  | cons p t ih =>
    by_cases hp : p.1 = k
    · simp [updA, hp, lookupA]
    · simp [updA, hp, lookupA, ih]

theorem lookupA_updA_other {k k' : Str} (h : k' ≠ k) (v : JTree)
    (ch : List (Str × JTree)) : lookupA k' (updA k v ch) = lookupA k' ch := by
  induction ch with
  | nil => simp [updA, lookupA, Ne.symm h]
  | cons p t ih =>
    by_cases hp : p.1 = k
    · subst hp
      simp [updA, lookupA, Ne.symm h]
    · simp [updA, hp, lookupA, ih]

theorem subtreeAt_emptyTree {q : List Str} (h : q ≠ []) :
    subtreeAt emptyTree q = none := by
  match q with
  | k :: q' => rw [subtreeAt]; rfl

theorem filesAt_emptyTree (q : List Str) : filesAt emptyTree q = [] := by
  match q with
  | [] => rfl
  | k :: q' => rw [filesAt, subtreeAt_emptyTree (by simp)]

theorem childKeysAt_emptyTree (q : List Str) : childKeysAt emptyTree q = [] := by
  match q with
  | [] => rfl
  | k :: q' => rw [childKeysAt, subtreeAt_emptyTree (by simp)]

/-- Unfolding for the recursive case of `add_to_tree`. -/
theorem add_to_tree_step (ch : List (Str × JTree)) (fs : List (Str × Str))
    (f : Str) (rest : List Str) (path : Str) (hne : rest ≠ []) :
    add_to_tree (.node ch fs) (f :: rest) path
      = .node (updA f (add_to_tree ((lookupA f ch).getD emptyTree) rest path) ch) fs := by
  match rest with
  | p :: r =>
    rw [add_to_tree]
    cases hl : lookupA f ch <;> simp [hl]

theorem subtreeAt_cons_some {ch : List (Str × JTree)} {fs : List (Str × Str)}
    {k : Str} {s : JTree} (q : List Str) (hl : lookupA k ch = some s) :
    subtreeAt (.node ch fs) (k :: q) = subtreeAt s q := by
  rw [subtreeAt]
  simp [JTree.children, hl]

theorem subtreeAt_cons_none {ch : List (Str × JTree)} {fs : List (Str × Str)}
    {k : Str} (q : List Str) (hl : lookupA k ch = none) :
    subtreeAt (.node ch fs) (k :: q) = none := by
  rw [subtreeAt]
  simp [JTree.children, hl]

theorem filesAt_cons (ch : List (Str × JTree)) (fs : List (Str × Str))
    (k : Str) (q : List Str) :
    filesAt (.node ch fs) (k :: q) = filesAt ((lookupA k ch).getD emptyTree) q := by
  cases hl : lookupA k ch with
  | none =>
    rw [filesAt, subtreeAt_cons_none q hl]
    simp [filesAt_emptyTree]
  | some s =>
    rw [filesAt, subtreeAt_cons_some q hl, filesAt]
    rfl

theorem childKeysAt_cons (ch : List (Str × JTree)) (fs : List (Str × Str))
    (k : Str) (q : List Str) :
    childKeysAt (.node ch fs) (k :: q) = childKeysAt ((lookupA k ch).getD emptyTree) q := by
  cases hl : lookupA k ch with
  | none =>
    rw [childKeysAt, subtreeAt_cons_none q hl]
    simp [childKeysAt_emptyTree]
  | some s =>
    rw [childKeysAt, subtreeAt_cons_some q hl, childKeysAt]
    rfl

/-- C10: inserting one entry mutates only the nodes along the inserted
segment path (the insertion is a total function, so it terminates on every
input): exactly one `{name, path}` record is appended to the files of the
node reached by the folder segments, that node's child-folder names are
unchanged, every subtree whose address is not a prefix of the folder path
(in particular every sibling subtree whose name differs from the traversed
segment at its level) is unchanged, and the files lists of all proper
prefixes (the intermediate nodes) are unchanged. -/
theorem c10_add_to_tree_frame (t : JTree) (folders : List Str) (name path : Str) :
    filesAt (add_to_tree t (folders ++ [name]) path) folders
        = filesAt t folders ++ [(name, path)] ∧
    childKeysAt (add_to_tree t (folders ++ [name]) path) folders
        = childKeysAt t folders ∧
    (∀ q : List Str, ¬ q <+: folders →
      subtreeAt (add_to_tree t (folders ++ [name]) path) q = subtreeAt t q) ∧
    (∀ q : List Str, q <+: folders → q ≠ folders →
      filesAt (add_to_tree t (folders ++ [name]) path) q = filesAt t q) := by
  induction folders generalizing t with
  | nil =>
    obtain ⟨ch, fs⟩ := t
    rw [List.nil_append]
    rw [show add_to_tree (JTree.node ch fs) [name] path
      = JTree.node ch (fs ++ [(name, path)]) from rfl]
    refine ⟨rfl, rfl, ?_, ?_⟩
    · intro q hq
      match q with
      | [] => exact absurd (List.nil_prefix) hq
      | k :: q' =>
        cases hl : lookupA k ch with
        | none =>
          rw [subtreeAt_cons_none q' hl, subtreeAt_cons_none q' hl]
        | some s =>
          rw [subtreeAt_cons_some q' hl, subtreeAt_cons_some q' hl]
    · intro q hq hne
      rw [List.prefix_nil.1 hq] at hne
      exact absurd rfl hne
  | cons f fr ih =>
    obtain ⟨ch, fs⟩ := t
    rw [List.cons_append, add_to_tree_step ch fs f (fr ++ [name]) path (by simp)]
    have ihs := ih ((lookupA f ch).getD emptyTree)
    refine ⟨?_, ?_, ?_, ?_⟩
    · rw [filesAt_cons, lookupA_updA_self, Option.getD_some, filesAt_cons ch fs f fr]
      exact ihs.1
    · rw [childKeysAt_cons, lookupA_updA_self, Option.getD_some, childKeysAt_cons ch fs f fr]
      exact ihs.2.1
    · intro q hq
      match q with
      | [] => exact absurd (List.nil_prefix) hq
      | k :: q' =>
        by_cases hk : k = f
        · subst hk
          have hq' : ¬ q' <+: fr := by
            intro hcon
            exact hq (List.cons_prefix_cons.2 ⟨rfl, hcon⟩)
          rw [subtreeAt_cons_some q' (lookupA_updA_self k _ ch)]
          cases hl : lookupA k ch with
          | none =>
            rw [subtreeAt_cons_none q' hl]
            have hnil : q' ≠ [] := by
              intro hcon
              subst hcon
              exact hq' (List.nil_prefix)
            rw [hl] at ihs
            rw [ihs.2.2.1 q' hq', Option.getD_none, subtreeAt_emptyTree hnil]
          | some s =>
            rw [subtreeAt_cons_some q' hl]
            rw [hl] at ihs
            rw [ihs.2.2.1 q' hq', Option.getD_some]
        · have hlk : lookupA k (updA f (add_to_tree ((lookupA f ch).getD emptyTree)
              (fr ++ [name]) path) ch) = lookupA k ch := lookupA_updA_other hk _ ch
          cases hl : lookupA k ch with
          | none =>
            rw [subtreeAt_cons_none q' (hlk.trans hl), subtreeAt_cons_none q' hl]
          | some s =>
            rw [subtreeAt_cons_some q' (hlk.trans hl), subtreeAt_cons_some q' hl]
    · intro q hq hne
      match q with
      | [] => rfl
      | k :: q' =>
        obtain ⟨hk, hq'⟩ := List.cons_prefix_cons.1 hq
        subst hk
        have hne' : q' ≠ fr := by
          intro hcon
          subst hcon
          exact absurd rfl hne
        rw [filesAt_cons, lookupA_updA_self, Option.getD_some, filesAt_cons ch fs k q']
        exact ihs.2.2.2 q' hq' hne'

/-- Witness for C10 at a concrete tree: inserting `f/n → p` into a tree
that already has `f/x → q` appends exactly the one record under `f` and
leaves the (absent) sibling address `g` untouched. -/
theorem c10_witness :
    filesAt (add_to_tree (JTree.node [("f".data, JTree.node [] [("x".data, "q".data)])] [])
        (["f".data] ++ ["n".data]) ("p".data)) ["f".data]
      = [("x".data, "q".data)] ++ [("n".data, "p".data)] ∧
    subtreeAt (add_to_tree (JTree.node [("f".data, JTree.node [] [("x".data, "q".data)])] [])
        (["f".data] ++ ["n".data]) ("p".data)) ["g".data]
      = subtreeAt (JTree.node [("f".data, JTree.node [] [("x".data, "q".data)])] [])
          ["g".data] := by
  have h := c10_add_to_tree_frame
    (JTree.node [("f".data, JTree.node [] [("x".data, "q".data)])] [])
    ["f".data] ("n".data) ("p".data)
  refine ⟨?_, h.2.2.1 ["g".data] (by decide)⟩
  rw [h.1]
  decide

/-! ## No stray `<img` machinery (for C8) -/

/-- A suffix of an append either lies inside the right part or is a suffix
of the left part with the whole right part appended. -/
theorem suffix_append_cases {x a b : Str} (h : x <:+ a ++ b) :
    x <:+ b ∨ ∃ y, y <:+ a ∧ x = y ++ b := by
  obtain ⟨t, ht⟩ := h
  by_cases hl : x.length ≤ b.length
  · left
    have hlen : a.length ≤ t.length := by
      have hc := congrArg List.length ht
      simp only [List.length_append] at hc
      omega
    refine ⟨t.drop a.length, ?_⟩
    rw [show t.drop a.length ++ x = (t ++ x).drop a.length from
      (List.drop_append_of_le_length hlen).symm, ht, List.drop_left]
  · right
    push_neg at hl
    have hlen : t.length + x.length = a.length + b.length := by
      have hc := congrArg List.length ht
      simpa [List.length_append] using hc
    have hta : t.length ≤ a.length := by omega
    refine ⟨x.take (x.length - b.length), ?_, ?_⟩
    · refine ⟨t, ?_⟩
      have h1 : a = (t ++ x).take a.length := by
        rw [ht, List.take_left]
      have hidx : a.length - t.length = x.length - b.length := by omega
      rw [h1, List.take_append_eq_append_take, List.take_of_length_le hta, hidx]
    · have hxb : x.drop (x.length - b.length) = b := by
        have hidx2 : x.length - b.length = a.length - t.length := by omega
        rw [hidx2]
        conv_rhs => rw [show b = (t ++ x).drop a.length from by rw [ht, List.drop_left]]
        rw [List.drop_append_eq_append_drop, List.drop_eq_nil_of_le hta, List.nil_append]
      conv_lhs => rw [← List.take_append_drop (x.length - b.length) x]
      rw [hxb]

/-- `<img` occurs in `s` iff some suffix of `s` starts with `<` and
continues with `img`. -/
theorem hasImg_iff {s : Str} :
    (['<', 'i', 'm', 'g'] <:+: s) ↔ ∃ v, ('<' :: v) <:+ s ∧ ['i', 'm', 'g'] <+: v := by
  constructor
  · rintro ⟨l, r, hlr⟩
    refine ⟨['i', 'm', 'g'] ++ r, ⟨l, ?_⟩, List.prefix_append _ _⟩
    rw [← hlr]
    simp
  · rintro ⟨v, ⟨t, ht⟩, ⟨w, hw⟩⟩
    refine ⟨t, w, ?_⟩
    rw [← ht, ← hw]
    simp

/-- Every `<` in the string has at least three following characters inside
the string and they do not spell `img`: no occurrence of `<img` can start
in such a string, whatever follows it. -/
def ltSafe (a : Str) : Prop :=
  ∀ v : Str, ('<' :: v) <:+ a → 3 ≤ v.length ∧ ¬ ['i', 'm', 'g'] <+: v

theorem not_hasImg_of_ltSafe {a : Str} (h : ltSafe a) :
    ¬ (['<', 'i', 'm', 'g'] <:+: a) := by
  rw [hasImg_iff]
  rintro ⟨v, hv, hpre⟩
  exact (h v hv).2 hpre

theorem ltSafe_append {a b : Str} (ha : ltSafe a) (hb : ltSafe b) : ltSafe (a ++ b) := by
  intro v hv
  rcases suffix_append_cases hv with h | ⟨y, hy, hxy⟩
  · exact hb v h
  · match y, hxy with
    | [], hxy =>
      rw [List.nil_append] at hxy
      exact hb v (hxy ▸ List.suffix_rfl)
    | c :: y', hxy =>
      rw [List.cons_append] at hxy
      injection hxy with hc hv'
      obtain ⟨hy3, hyimg⟩ := ha y' (by rw [hc]; exact hy)
      subst hv'
      constructor
      · simp only [List.length_append]
        omega
      · intro hcon
        exact hyimg (preOfAppendLeft hcon (by simpa using hy3))

/-- Occurrences of `<img` that start in an `ltSafe` block die inside it, so
prepending such a block preserves img-freeness. -/
theorem not_hasImg_append_of_ltSafe {a b : Str} (ha : ltSafe a)
    (hb : ¬ (['<', 'i', 'm', 'g'] <:+: b)) :
    ¬ (['<', 'i', 'm', 'g'] <:+: (a ++ b)) := by
  rw [hasImg_iff]
  rintro ⟨v, hv, hpre⟩
  rcases suffix_append_cases hv with h | ⟨y, hy, hxy⟩
  · exact hb (hasImg_iff.2 ⟨v, h, hpre⟩)
  · match y, hxy with
    | [], hxy =>
      rw [List.nil_append] at hxy
      exact hb (hasImg_iff.2 ⟨v, hxy ▸ List.suffix_rfl, hpre⟩)
    | c :: y', hxy =>
      rw [List.cons_append] at hxy
      injection hxy with hc hv'
      obtain ⟨hy3, hyimg⟩ := ha y' (by rw [hc]; exact hy)
      subst hv'
      exact hyimg (preOfAppendLeft hpre (by simpa using hy3))

/-- Joining two img-free strings stays img-free provided the right string
does not begin with `i`, `m` or `g` (so no occurrence can straddle the
boundary, since `img` itself contains no `<`). -/
theorem not_hasImg_append_guard {a b : Str}
    (ha : ¬ (['<', 'i', 'm', 'g'] <:+: a)) (hb : ¬ (['<', 'i', 'm', 'g'] <:+: b))
    (hhead : ∀ c v, b = c :: v → c ≠ 'i' ∧ c ≠ 'm' ∧ c ≠ 'g') :
    ¬ (['<', 'i', 'm', 'g'] <:+: (a ++ b)) := by
  rw [hasImg_iff]
  rintro ⟨v, hv, hpre⟩
  rcases suffix_append_cases hv with h | ⟨y, hy, hxy⟩
  · exact hb (hasImg_iff.2 ⟨v, h, hpre⟩)
  · match y, hxy with
    | [], hxy =>
      rw [List.nil_append] at hxy
      exact hb (hasImg_iff.2 ⟨v, hxy ▸ List.suffix_rfl, hpre⟩)
    | c :: y', hxy =>
      rw [List.cons_append] at hxy
      injection hxy with hc hv'
      subst hv'
      by_cases hy3 : 3 ≤ y'.length
      · exact ha (hasImg_iff.2 ⟨y', by rw [hc]; exact hy,
          preOfAppendLeft hpre (by simpa using hy3)⟩)
      · push_neg at hy3
        obtain ⟨hyp, hwpre⟩ := preThroughAppend hpre (by simp; omega)
        match y', hy3 with
        | [], _ =>
          obtain ⟨w, hw⟩ := hwpre
          simp only [List.length_nil, List.drop_zero, List.cons_append] at hw
          exact absurd rfl (hhead 'i' _ hw.symm).1
        | [c1], _ =>
          obtain ⟨w, hw⟩ := hwpre
          simp only [List.length_cons, List.length_nil, List.drop_succ_cons,
            List.drop_zero, List.cons_append] at hw
          exact absurd rfl (hhead 'm' _ hw.symm).2.1
        | [c1, c2], _ =>
          obtain ⟨w, hw⟩ := hwpre
          simp only [List.length_cons, List.length_nil, List.drop_succ_cons,
            List.drop_zero, List.cons_append] at hw
          exact absurd rfl (hhead 'g' _ hw.symm).2.2
        | c1 :: c2 :: c3 :: r, hlt => simp at hlt; omega

/-- Decidable check for `ltSafe`. -/
def ltSafeB : Str → Bool
  | [] => true
  | c :: t =>
    (if c = '<' then decide (3 ≤ t.length) && ! (['i', 'm', 'g'].isPrefixOf t) else true)
    && ltSafeB t

theorem ltSafe_of_ltSafeB {a : Str} (h : ltSafeB a = true) : ltSafe a := by
  induction a with
  | nil =>
    intro v hv
    rw [List.suffix_nil] at hv
    cases hv
  | cons c t ih =>
    rw [ltSafeB, Bool.and_eq_true] at h
    intro v hv
    rcases List.suffix_cons_iff.1 hv with he | hs
    · injection he with h1 h2
      subst h2
      rw [← h1, if_pos rfl, Bool.and_eq_true] at h
      obtain ⟨⟨h3, h4⟩, _⟩ := h
      refine ⟨by simpa using h3, fun hcon => ?_⟩
      rw [Bool.not_eq_true'] at h4
      rw [show (['i', 'm', 'g'].isPrefixOf v) = true from by
        rw [ List.isPrefixOf_iff_prefix]; exact hcon] at h4
      cases h4
    · exact ih h.2 v hs

/-- `html.escape` output never contains a raw `<`. -/
theorem lt_not_mem_escape (s : Str) : '<' ∉ htmlEscape s := by
  intro h
  rw [htmlEscape, List.mem_flatMap] at h
  obtain ⟨c, hc, hmem⟩ := h
  revert hmem
  rw [escapeChar]
  split_ifs with h1 h2 h3 h4 h5 <;> simp_all
  exact fun hh => h2 hh.symm

theorem ltSafe_of_no_lt {a : Str} (h : '<' ∉ a) : ltSafe a := by
  intro v hv
  exfalso
  exact h ( List.IsSuffix.mem (List.mem_cons_self '<' v) hv)

/-- `containsStr` decides infixhood. -/
theorem containsStr_iff {pat s : Str} : containsStr pat s = true ↔ pat <:+: s := by
  induction s with
  | nil =>
    rw [containsStr]
    rw [List.isEmpty_iff, List.infix_nil]
  | cons c t ih =>
    rw [containsStr, Bool.or_eq_true, ih, List.infix_cons_iff,
      List.isPrefixOf_iff_prefix]

set_option maxRecDepth 8192 in
/-- Counterexample to C8 as stated: a model with no screenshot
(`image_src = None`) whose documentation HTML itself contains an `<img>`
element produces a page that does contain `<img>` — markdown documentation
can legitimately embed images, so "contains no `<img>` element at all" is
false as universally stated. -/
theorem c8_counterexample :
    containsStr (['<', 'i', 'm', 'g'])
      (render_model_page ("T".data) [] ("<img src=\"x\">".data) none
        ("s.css".data) ("i.html".data) ("u".data)) = true := by decide

set_option maxRecDepth 8192 in
/-- C8 as corrected: when no screenshot image was found the image markup is
omitted entirely (`image_html` is empty, see `c4` decomposition), and the
page contains no `<img>` at all provided the documentation fragment itself
contains none: the template and all escaped interpolations are `<img>`-free
and no occurrence can straddle a boundary. -/
theorem c8_no_image_no_img_tag (title model_rel info_html : Str)
    (stylesheet_href back_href netlogo_url : Str)
    (hinfo : containsStr ['<', 'i', 'm', 'g'] info_html = false) :
    containsStr ['<', 'i', 'm', 'g']
      (render_model_page title model_rel info_html none stylesheet_href back_href
        netlogo_url) = false := by
  have hinfo2 : ¬ (['<', 'i', 'm', 'g'] <:+: info_html) := by
    rw [← containsStr_iff]
    simp [hinfo]
  rw [← Bool.not_eq_true, containsStr_iff]
  have hpage : render_model_page title model_rel info_html none stylesheet_href
      back_href netlogo_url
      = tpl1 ++ (htmlEscape title ++ (tpl2 ++ (htmlEscape stylesheet_href ++ (tpl3
        ++ (htmlEscape back_href ++ (tpl4 ++ (htmlEscape title ++ (tpl5
        ++ (htmlEscape netlogo_url ++ (tpl6 ++ (tpl7
        ++ ((if info_html = [] then noInfoPlaceholder else info_html)
          ++ tpl8)))))))))))) := by
    simp [render_model_page, imageHtml, List.append_assoc]
  rw [hpage]
  have hib : ¬ (['<', 'i', 'm', 'g'] <:+:
      (if info_html = [] then noInfoPlaceholder else info_html)) := by
    by_cases hie : info_html = []
    · rw [if_pos hie]
      exact not_hasImg_of_ltSafe (ltSafe_of_ltSafeB (by decide))
    · rw [if_neg hie]
      exact hinfo2
  have h8 : ¬ (['<', 'i', 'm', 'g'] <:+: tpl8) :=
    not_hasImg_of_ltSafe (ltSafe_of_ltSafeB (by decide))
  have hib8 : ¬ (['<', 'i', 'm', 'g'] <:+:
      ((if info_html = [] then noInfoPlaceholder else info_html) ++ tpl8)) := by
    refine not_hasImg_append_guard hib h8 ?_
    intro c v hv
    rw [show tpl8
      = '<' :: ("/div>\n      </div>\n    </main>\n  </body>\n</html>\n".data)
      from rfl] at hv
    injection hv with hc hv2
    subst hc
    exact ⟨by decide, by decide, by decide⟩
  refine not_hasImg_append_of_ltSafe (ltSafe_of_ltSafeB (by decide)) ?_
  refine not_hasImg_append_of_ltSafe (ltSafe_of_no_lt (lt_not_mem_escape title)) ?_
  refine not_hasImg_append_of_ltSafe (ltSafe_of_ltSafeB (by decide)) ?_
  refine not_hasImg_append_of_ltSafe
    (ltSafe_of_no_lt (lt_not_mem_escape stylesheet_href)) ?_
  refine not_hasImg_append_of_ltSafe (ltSafe_of_ltSafeB (by decide)) ?_
  refine not_hasImg_append_of_ltSafe (ltSafe_of_no_lt (lt_not_mem_escape back_href)) ?_
  refine not_hasImg_append_of_ltSafe (ltSafe_of_ltSafeB (by decide)) ?_
  refine not_hasImg_append_of_ltSafe (ltSafe_of_no_lt (lt_not_mem_escape title)) ?_
  refine not_hasImg_append_of_ltSafe (ltSafe_of_ltSafeB (by decide)) ?_
  refine not_hasImg_append_of_ltSafe
    (ltSafe_of_no_lt (lt_not_mem_escape netlogo_url)) ?_
  refine not_hasImg_append_of_ltSafe (ltSafe_of_ltSafeB (by decide)) ?_
  refine not_hasImg_append_of_ltSafe (ltSafe_of_ltSafeB (by decide)) ?_
  exact hib8

set_option maxRecDepth 8192 in
/-- Witness for the corrected C8 at a concrete img-free documentation. -/
theorem c8_witness :
    containsStr ['<', 'i', 'm', 'g']
      (render_model_page ("T".data) [] ("<p>doc</p>".data) none
        ("s.css".data) ("i.html".data) ("u".data)) = false :=
  c8_no_image_no_img_tag ("T".data) [] ("<p>doc</p>".data)
    ("s.css".data) ("i.html".data) ("u".data) (by decide)

/-! ## Order-independence of tree building (C5)

Two trees built from permuted insertion orders are not equal — Python
dicts remember insertion order — but they are equivalent up to reordering
of children and files.  `TEquiv` captures that equivalence; rendering is
invariant under it when sibling names are distinct after lowercasing. -/

/-- Equivalence of trees up to ordering: same files up to permutation,
same child-folder names up to permutation, and equivalent subtrees at
every common name. -/
inductive TEquiv : JTree → JTree → Prop where
  | mk {ch1 ch2 : List (Str × JTree)} {fs1 fs2 : List (Str × Str)} :
      fs1.Perm fs2 →
      (ch1.map (fun p => p.1)).Perm (ch2.map (fun p => p.1)) →
      (∀ k t1 t2, lookupA k ch1 = some t1 → lookupA k ch2 = some t2 → TEquiv t1 t2) →
      TEquiv (.node ch1 fs1) (.node ch2 fs2)

/-- Well-formedness invariant of trees built through `add_to_tree`: the
child dict has no duplicate keys, recursively (Python dict keys are
unique). -/
inductive WFk : JTree → Prop where
  | mk {ch : List (Str × JTree)} {fs : List (Str × Str)} :
      (ch.map (fun p => p.1)).Nodup →
      (∀ p ∈ ch, WFk p.2) → WFk (.node ch fs)

/-- Sibling names are pairwise distinct after lowercasing, at every level,
for both child folders and files. -/
inductive LowD : JTree → Prop where
  | mk {ch : List (Str × JTree)} {fs : List (Str × Str)} :
      (ch.map (fun p => p.1)).Pairwise (fun a b => lowStr a ≠ lowStr b) →
      (fs.map (fun p => p.1)).Pairwise (fun a b => lowStr a ≠ lowStr b) →
      (∀ p ∈ ch, LowD p.2) → LowD (.node ch fs)

/-- Decidable check for pairwise-distinct lowercased names. -/
def distinctLowB : List Str → Bool
  | [] => true
  | a :: t => t.all (fun b => decide (lowStr a ≠ lowStr b)) && distinctLowB t

mutual
/-- Decidable check for `LowD`. -/
def lowDB : JTree → Bool
  | .node ch fs =>
    distinctLowB (ch.map (fun p => p.1)) && distinctLowB (fs.map (fun p => p.1))
      && lowDBList ch
def lowDBList : List (Str × JTree) → Bool
  | [] => true
  | p :: t => lowDB p.2 && lowDBList t
end

theorem distinctLowB_pairwise {l : List Str} (h : distinctLowB l = true) :
    l.Pairwise (fun a b => lowStr a ≠ lowStr b) := by
  induction l with
  | nil => exact List.Pairwise.nil
  | cons a t ih =>
    rw [distinctLowB, Bool.and_eq_true] at h
    refine List.Pairwise.cons ?_ (ih h.2)
    intro b hb
    have := List.all_eq_true.1 h.1 b hb
    simpa using this

theorem lowDBList_mem {ch : List (Str × JTree)} (h : lowDBList ch = true)
    {p : Str × JTree} (hp : p ∈ ch) : lowDB p.2 = true := by
  induction ch with
  | nil => cases hp
  | cons q t ih =>
    rw [lowDBList, Bool.and_eq_true] at h
    rcases List.mem_cons.1 hp with he | hm
    · rw [he]
      exact h.1
    · exact ih h.2 hm

theorem lookupA_mem {k : Str} {ch : List (Str × JTree)} {s : JTree}
    (h : lookupA k ch = some s) : (k, s) ∈ ch := by
  induction ch with
  | nil => cases h
  | cons p t ih =>
    rw [lookupA] at h
    split at h
    · rename_i hp
      injection h with he
      subst he
      have hpk : p = (k, p.2) := by
        rw [Prod.ext_iff]
        exact ⟨hp, rfl⟩
      rw [← hpk]
      exact List.mem_cons_self _ _
    · exact List.mem_cons_of_mem _ (ih h)

theorem lookupA_eq_none_iff {k : Str} {ch : List (Str × JTree)} :
    lookupA k ch = none ↔ k ∉ ch.map (fun p => p.1) := by
  induction ch with
  | nil => simp [lookupA]
  | cons p t ih =>
    rw [lookupA, List.map_cons, List.mem_cons]
    by_cases hp : p.1 = k
    · rw [if_pos hp]
      constructor
      · intro h
        cases h
      · intro h
        exact absurd (Or.inl hp.symm) h
    · rw [if_neg hp, ih]
      constructor
      · intro h hmem
        rcases hmem with he | hm
        · exact hp he.symm
        · exact h hm
      · intro h hm
        exact h (Or.inr hm)

theorem lookupA_of_mem_nodup {ch : List (Str × JTree)} {k : Str} {s : JTree}
    (hnd : (ch.map (fun p => p.1)).Nodup) (hm : (k, s) ∈ ch) :
    lookupA k ch = some s := by
  induction ch with
  | nil => cases hm
  | cons p t ih =>
    rw [List.map_cons, List.nodup_cons] at hnd
    rcases List.mem_cons.1 hm with he | hm
    · rw [← he, lookupA, if_pos rfl]
    · rw [lookupA]
      have hk : k ∈ t.map (fun p => p.1) := List.mem_map.2 ⟨(k, s), hm, rfl⟩
      have hne : ¬ p.1 = k := fun hh => hnd.1 (hh ▸ hk)
      rw [if_neg hne]
      exact ih hnd.2 hm

/-- The key list after an update: unchanged when the key was present,
extended by the key otherwise. -/
theorem updA_map_fst (k : Str) (v : JTree) (ch : List (Str × JTree)) :
    (updA k v ch).map (fun p => p.1)
      = if k ∈ ch.map (fun p => p.1) then ch.map (fun p => p.1)
        else ch.map (fun p => p.1) ++ [k] := by
  induction ch with
  | nil => simp [updA]
  | cons p t ih =>
    by_cases hp : p.1 = k
    · rw [updA, if_pos hp, List.map_cons, List.map_cons,
        if_pos (List.mem_cons.2 (Or.inl hp.symm))]
    · rw [updA, if_neg hp, List.map_cons, ih, List.map_cons]
      by_cases hk : k ∈ t.map (fun p => p.1)
      · rw [if_pos hk, if_pos (List.mem_cons.2 (Or.inr hk))]
      · have hout : k ∉ p.1 :: t.map (fun p => p.1) := by
          intro hmem
          rcases List.mem_cons.1 hmem with he | hm
          · exact hp he.symm
          · exact hk hm
        rw [if_neg hk, if_neg hout, List.cons_append]

/-- Membership in an updated association list. -/
theorem mem_updA_cases {q : Str × JTree} {k : Str} {v : JTree}
    {ch : List (Str × JTree)} (h : q ∈ updA k v ch) : q = (k, v) ∨ q ∈ ch := by
  induction ch with
  | nil =>
    rw [updA] at h
    rcases List.mem_cons.1 h with he | hm
    · exact Or.inl he
    · cases hm
  | cons p t ih =>
    rw [updA] at h
    split at h
    · rename_i hp
      rcases List.mem_cons.1 h with he | hm
      · left
        rw [he, hp]
      · right
        exact List.mem_cons_of_mem _ hm
    · rcases List.mem_cons.1 h with he | hm
      · right
        rw [he]
        exact List.mem_cons_self _ _
      · rcases ih hm with h2 | h2
        · exact Or.inl h2
        · exact Or.inr (List.mem_cons_of_mem _ h2)

theorem tEquiv_refl_aux : ∀ (n : Nat) (t : JTree), sizeOf t ≤ n → TEquiv t t := by
  intro n
  induction n with
  | zero =>
    intro t h
    obtain ⟨ch, fs⟩ := t
    simp at h
  | succ n ih =>
    intro t h
    obtain ⟨ch, fs⟩ := t
    refine TEquiv.mk (List.Perm.refl _) (List.Perm.refl _) ?_
    intro k t1 t2 h1 h2
    rw [h1] at h2
    injection h2 with he
    subst he
    apply ih
    have hsz := List.sizeOf_lt_of_mem (lookupA_mem h1)
    have hps : sizeOf (k, t1) = 1 + sizeOf k + sizeOf t1 := rfl
    have hns : sizeOf (JTree.node ch fs) = 1 + sizeOf ch + sizeOf fs := by
      simp [JTree.node.sizeOf_spec]
    rw [hps] at hsz
    rw [hns] at h
    omega

theorem tEquiv_refl (t : JTree) : TEquiv t t := tEquiv_refl_aux (sizeOf t) t (Nat.le_refl _)

theorem tEquiv_trans : ∀ {t1 t2 t3 : JTree}, TEquiv t1 t2 → TEquiv t2 t3 → TEquiv t1 t3 := by
  intro t1 t2 t3 h12
  induction h12 generalizing t3 with
  | mk hf hk hrec ih =>
    rename_i ch1 ch2 fs1 fs2
    intro h23
    cases h23 with
    | mk hf2 hk2 hrec2 =>
      refine TEquiv.mk (hf.trans hf2) (hk.trans hk2) ?_
      intro k s1 s3 h1 h3
      have hk1 : k ∈ ch1.map (fun p => p.1) :=
        List.mem_map.2 ⟨(k, s1), lookupA_mem h1, rfl⟩
      have hk2m : k ∈ ch2.map (fun p => p.1) := hk.mem_iff.1 hk1
      cases hmid : lookupA k ch2 with
      | none => exact absurd hk2m (lookupA_eq_none_iff.1 hmid)
      | some s2 => exact ih k s1 s2 h1 hmid (hrec2 k s2 s3 hmid h3)

/-- Same children, permuted files: equivalent. -/
theorem tEquiv_files_perm {ch : List (Str × JTree)} {f1 f2 : List (Str × Str)}
    (h : f1.Perm f2) : TEquiv (.node ch f1) (.node ch f2) := by
  refine TEquiv.mk h (List.Perm.refl _) ?_
  intro k t1 t2 h1 h2
  rw [h1] at h2
  injection h2 with he
  subst he
  exact tEquiv_refl t1

/-- Updating the same key with equivalent values gives equivalent nodes. -/
theorem tEquiv_updA_value {ch : List (Str × JTree)} {fs : List (Str × Str)}
    {k : Str} {v1 v2 : JTree} (h : TEquiv v1 v2) :
    TEquiv (.node (updA k v1 ch) fs) (.node (updA k v2 ch) fs) := by
  refine TEquiv.mk (List.Perm.refl _) ?_ ?_
  · rw [updA_map_fst, updA_map_fst]
  · intro k' t1 t2 h1 h2
    by_cases hk : k' = k
    · subst hk
      rw [lookupA_updA_self] at h1 h2
      injection h1 with e1
      injection h2 with e2
      subst e1
      subst e2
      exact h
    · rw [lookupA_updA_other hk] at h1 h2
      rw [h1] at h2
      injection h2 with he
      subst he
      exact tEquiv_refl t1

/-- A second update of the same key overwrites the first. -/
theorem updA_updA_self (k : Str) (v1 v2 : JTree) (ch : List (Str × JTree)) :
    updA k v2 (updA k v1 ch) = updA k v2 ch := by
  induction ch with
  | nil => simp [updA]
  | cons p t ih =>
    by_cases hp : p.1 = k
    · simp [updA, hp]
    · simp [updA, hp, ih]

/-- `add_to_tree` is a congruence for `TEquiv`. -/
theorem add_congr : ∀ (parts : List Str) (path : Str) {t1 t2 : JTree},
    TEquiv t1 t2 → TEquiv (add_to_tree t1 parts path) (add_to_tree t2 parts path)
  | [], _, t1, t2, h => by
    obtain ⟨c1, f1⟩ := t1
    obtain ⟨c2, f2⟩ := t2
    exact h
  | [name], path, t1, t2, h => by
    obtain ⟨c1, f1⟩ := t1
    obtain ⟨c2, f2⟩ := t2
    cases h with
    | mk hf hk hrec =>
      exact TEquiv.mk (hf.append_right _) hk hrec
  | folder :: p :: rest, path, t1, t2, h => by
    obtain ⟨c1, f1⟩ := t1
    obtain ⟨c2, f2⟩ := t2
    cases h with
    | mk hf hk hrec =>
      rw [add_to_tree_step _ _ _ _ _ (by simp), add_to_tree_step _ _ _ _ _ (by simp)]
      have hsub : TEquiv ((lookupA folder c1).getD emptyTree)
          ((lookupA folder c2).getD emptyTree) := by
        cases h1 : lookupA folder c1 with
        | none =>
          have h2 : lookupA folder c2 = none := by
            rw [lookupA_eq_none_iff] at h1 ⊢
            intro hmem
            exact h1 (hk.mem_iff.2 hmem)
          rw [h2]
          exact tEquiv_refl _
        | some s1 =>
          cases h2 : lookupA folder c2 with
          | none =>
            exfalso
            rw [lookupA_eq_none_iff] at h2
            exact h2 (hk.mem_iff.1 (List.mem_map.2 ⟨(folder, s1), lookupA_mem h1, rfl⟩))
          | some s2 =>
            rw [Option.getD_some, Option.getD_some]
            exact hrec folder s1 s2 h1 h2
      have hnew := add_congr (p :: rest) path hsub
      refine TEquiv.mk hf ?_ ?_
      · rw [updA_map_fst, updA_map_fst]
        by_cases hm : folder ∈ c1.map (fun p => p.1)
        · rw [if_pos hm, if_pos (hk.mem_iff.1 hm)]
          exact hk
        · rw [if_neg hm, if_neg (fun hmem => hm (hk.mem_iff.2 hmem))]
          exact hk.append_right _
      · intro k s1 s2 h1 h2
        by_cases hkf : k = folder
        · subst hkf
          rw [lookupA_updA_self] at h1 h2
          injection h1 with e1
          injection h2 with e2
          subst e1
          subst e2
          exact hnew
        · rw [lookupA_updA_other hkf] at h1 h2
          exact hrec k s1 s2 h1 h2

theorem add_to_tree_nil (t : JTree) (path : Str) : add_to_tree t [] path = t := by
  cases t
  rfl

theorem add_to_tree_one (ch : List (Str × JTree)) (fs : List (Str × Str))
    (name path : Str) :
    add_to_tree (.node ch fs) [name] path = .node ch (fs ++ [(name, path)]) := rfl

/-- Inserting two entries in either order yields equivalent trees. -/
theorem add_comm_equiv : ∀ (p1 : List Str) (s1 : Str) (p2 : List Str) (s2 : Str) (t : JTree),
    TEquiv (add_to_tree (add_to_tree t p1 s1) p2 s2)
      (add_to_tree (add_to_tree t p2 s2) p1 s1)
  | [], s1, p2, s2, t => by
    rw [add_to_tree_nil t s1, add_to_tree_nil (add_to_tree t p2 s2) s1]
    exact tEquiv_refl _
  | p1, s1, [], s2, t => by
    rw [add_to_tree_nil t s2, add_to_tree_nil (add_to_tree t p1 s1) s2]
    exact tEquiv_refl _
  | [n1], s1, [n2], s2, t => by
    obtain ⟨ch, fs⟩ := t
    rw [show add_to_tree (add_to_tree (JTree.node ch fs) [n1] s1) [n2] s2
      = JTree.node ch ((fs ++ [(n1, s1)]) ++ [(n2, s2)]) from rfl]
    rw [show add_to_tree (add_to_tree (JTree.node ch fs) [n2] s2) [n1] s1
      = JTree.node ch ((fs ++ [(n2, s2)]) ++ [(n1, s1)]) from rfl]
    rw [List.append_assoc, List.append_assoc]
    exact tEquiv_files_perm (List.Perm.append_left fs (List.Perm.swap _ _ _))
  | [n1], s1, f2 :: q2 :: r2, s2, t => by
    obtain ⟨ch, fs⟩ := t
    have hL : add_to_tree (add_to_tree (JTree.node ch fs) [n1] s1) (f2 :: q2 :: r2) s2
        = JTree.node
            (updA f2 (add_to_tree ((lookupA f2 ch).getD emptyTree) (q2 :: r2) s2) ch)
            (fs ++ [(n1, s1)]) := by
      rw [show add_to_tree (JTree.node ch fs) [n1] s1
        = JTree.node ch (fs ++ [(n1, s1)]) from rfl]
      rw [add_to_tree_step _ _ _ _ _ (by simp)]
    have hR : add_to_tree (add_to_tree (JTree.node ch fs) (f2 :: q2 :: r2) s2) [n1] s1
        = JTree.node
            (updA f2 (add_to_tree ((lookupA f2 ch).getD emptyTree) (q2 :: r2) s2) ch)
            (fs ++ [(n1, s1)]) := by
      rw [add_to_tree_step _ _ _ _ _ (by simp)]
      rfl
    rw [hL, hR]
    exact tEquiv_refl _
  | f1 :: q1 :: r1, s1, [n2], s2, t => by
    obtain ⟨ch, fs⟩ := t
    have hL : add_to_tree (add_to_tree (JTree.node ch fs) (f1 :: q1 :: r1) s1) [n2] s2
        = JTree.node
            (updA f1 (add_to_tree ((lookupA f1 ch).getD emptyTree) (q1 :: r1) s1) ch)
            (fs ++ [(n2, s2)]) := by
      rw [add_to_tree_step _ _ _ _ _ (by simp)]
      rfl
    have hR : add_to_tree (add_to_tree (JTree.node ch fs) [n2] s2) (f1 :: q1 :: r1) s1
        = JTree.node
            (updA f1 (add_to_tree ((lookupA f1 ch).getD emptyTree) (q1 :: r1) s1) ch)
            (fs ++ [(n2, s2)]) := by
      rw [show add_to_tree (JTree.node ch fs) [n2] s2
        = JTree.node ch (fs ++ [(n2, s2)]) from rfl]
      rw [add_to_tree_step _ _ _ _ _ (by simp)]
    rw [hL, hR]
    exact tEquiv_refl _
  | f1 :: q1 :: r1, s1, f2 :: q2 :: r2, s2, t => by
    obtain ⟨ch, fs⟩ := t
    by_cases hff : f1 = f2
    · subst hff
      have hL : add_to_tree (add_to_tree (JTree.node ch fs) (f1 :: q1 :: r1) s1)
            (f1 :: q2 :: r2) s2
          = JTree.node
              (updA f1 (add_to_tree
                (add_to_tree ((lookupA f1 ch).getD emptyTree) (q1 :: r1) s1)
                (q2 :: r2) s2) ch) fs := by
        rw [add_to_tree_step _ _ _ _ _ (by simp), add_to_tree_step _ _ _ _ _ (by simp),
          lookupA_updA_self, Option.getD_some, updA_updA_self]
      have hR : add_to_tree (add_to_tree (JTree.node ch fs) (f1 :: q2 :: r2) s2)
            (f1 :: q1 :: r1) s1
          = JTree.node
              (updA f1 (add_to_tree
                (add_to_tree ((lookupA f1 ch).getD emptyTree) (q2 :: r2) s2)
                (q1 :: r1) s1) ch) fs := by
        rw [add_to_tree_step _ _ _ _ _ (by simp), add_to_tree_step _ _ _ _ _ (by simp),
          lookupA_updA_self, Option.getD_some, updA_updA_self]
      rw [hL, hR]
      exact tEquiv_updA_value (add_comm_equiv (q1 :: r1) s1 (q2 :: r2) s2 _)
    · have hff2 : f2 ≠ f1 := Ne.symm hff
      have hL : add_to_tree (add_to_tree (JTree.node ch fs) (f1 :: q1 :: r1) s1)
            (f2 :: q2 :: r2) s2
          = JTree.node
              (updA f2 (add_to_tree ((lookupA f2 ch).getD emptyTree) (q2 :: r2) s2)
                (updA f1 (add_to_tree ((lookupA f1 ch).getD emptyTree) (q1 :: r1) s1) ch))
              fs := by
        rw [add_to_tree_step _ _ _ _ _ (by simp), add_to_tree_step _ _ _ _ _ (by simp),
          lookupA_updA_other hff2]
      have hR : add_to_tree (add_to_tree (JTree.node ch fs) (f2 :: q2 :: r2) s2)
            (f1 :: q1 :: r1) s1
          = JTree.node
              (updA f1 (add_to_tree ((lookupA f1 ch).getD emptyTree) (q1 :: r1) s1)
                (updA f2 (add_to_tree ((lookupA f2 ch).getD emptyTree) (q2 :: r2) s2) ch))
              fs := by
        rw [add_to_tree_step _ _ _ _ _ (by simp), add_to_tree_step _ _ _ _ _ (by simp),
          lookupA_updA_other hff]
      rw [hL, hR]
      refine TEquiv.mk (List.Perm.refl _) ?_ ?_
      · rw [updA_map_fst, updA_map_fst, updA_map_fst, updA_map_fst]
        by_cases h1 : f1 ∈ ch.map (fun p => p.1)
        · by_cases h2 : f2 ∈ ch.map (fun p => p.1)
          · rw [if_pos h1, if_pos h2, if_pos h1]
          · rw [if_pos h1, if_neg h2, if_pos (List.mem_append.2 (Or.inl h1))]
        · by_cases h2 : f2 ∈ ch.map (fun p => p.1)
          · rw [if_neg h1, if_pos h2, if_neg h1,
              if_pos (List.mem_append.2 (Or.inl h2))]
          · rw [if_neg h1, if_neg h2,
              if_neg (fun hmem => by
                rcases List.mem_append.1 hmem with hm | hm
                · exact h2 hm
                · exact hff2 (List.mem_singleton.1 hm)),
              if_neg (fun hmem => by
                rcases List.mem_append.1 hmem with hm | hm
                · exact h1 hm
                · exact hff (List.mem_singleton.1 hm)),
              List.append_assoc, List.append_assoc]
            exact List.Perm.append_left _ (List.Perm.swap _ _ _)
      · intro k v1 v2 hv1 hv2
        by_cases hk2 : k = f2
        · subst hk2
          rw [lookupA_updA_self] at hv1
          rw [lookupA_updA_other hff2, lookupA_updA_self] at hv2
          injection hv1 with e1
          injection hv2 with e2
          subst e1
          subst e2
          exact tEquiv_refl _
        by_cases hk1 : k = f1
        · subst hk1
          rw [lookupA_updA_other hk2, lookupA_updA_self] at hv1
          rw [lookupA_updA_self] at hv2
          injection hv1 with e1
          injection hv2 with e2
          subst e1
          subst e2
          exact tEquiv_refl _
        · rw [lookupA_updA_other hk2, lookupA_updA_other hk1] at hv1
          rw [lookupA_updA_other hk1, lookupA_updA_other hk2] at hv2
          rw [hv1] at hv2
          injection hv2 with he
          subst he
          exact tEquiv_refl _

/-! ## Order-independence of the build (C5) -/

theorem fold_add_congr : ∀ (l : List (List Str × Str)) {t1 t2 : JTree},
    TEquiv t1 t2 →
    TEquiv (l.foldl (fun t e => add_to_tree t e.1 e.2) t1)
      (l.foldl (fun t e => add_to_tree t e.1 e.2) t2)
  | [], _, _, h => h
  | e :: l, _, _, h => fold_add_congr l (add_congr e.1 e.2 h)

/-- Folding a permuted entry list from the same start tree yields an
equivalent tree. -/
theorem fold_perm_equiv {l1 l2 : List (List Str × Str)} (hp : l1.Perm l2) :
    ∀ t : JTree,
      TEquiv (l1.foldl (fun t e => add_to_tree t e.1 e.2) t)
        (l2.foldl (fun t e => add_to_tree t e.1 e.2) t) := by
  induction hp with
  | nil =>
    intro t
    exact tEquiv_refl _
  | cons x hp ih =>
    intro t
    simp only [List.foldl_cons]
    exact ih _
  | swap x y l =>
    intro t
    simp only [List.foldl_cons]
    exact fold_add_congr l (add_comm_equiv y.1 y.2 x.1 x.2 t)
  | trans h1 h2 ih1 ih2 =>
    intro t
    exact tEquiv_trans (ih1 t) (ih2 t)

theorem WFk_emptyTree : WFk emptyTree :=
  WFk.mk List.nodup_nil (fun p hp => absurd hp (List.not_mem_nil p))

/-- Insertion preserves key-uniqueness of the child dicts (Python dict
keys stay unique). -/
theorem WFk_add : ∀ (parts : List Str) (path : Str) {t : JTree}, WFk t →
    WFk (add_to_tree t parts path)
  | [], path, t, h => by rwa [add_to_tree_nil]
  | [name], path, t, h => by
    obtain ⟨ch, fs⟩ := t
    rw [add_to_tree_one]
    cases h with
    | mk hnd hrec => exact WFk.mk hnd hrec
  | folder :: p :: rest, path, t, h => by
    obtain ⟨ch, fs⟩ := t
    rw [add_to_tree_step _ _ _ _ _ (by simp)]
    cases h with
    | mk hnd hrec =>
      have hsub : WFk ((lookupA folder ch).getD emptyTree) := by
        cases hl : lookupA folder ch with
        | none => exact WFk_emptyTree
        | some s =>
          rw [Option.getD_some]
          exact hrec (folder, s) (lookupA_mem hl)
      have hnew := WFk_add (p :: rest) path hsub
      refine WFk.mk ?_ ?_
      · rw [updA_map_fst]
        by_cases hm : folder ∈ ch.map (fun q => q.1)
        · rw [if_pos hm]
          exact hnd
        · rw [if_neg hm]
          refine List.Nodup.append hnd (List.nodup_singleton _) ?_
          intro a ha hb
          rw [List.mem_singleton] at hb
          subst hb
          exact hm ha
      · intro q hq
        rcases mem_updA_cases hq with he | hm
        · rw [he]
          exact hnew
        · exact hrec q hm

theorem WFk_buildTree (l : List (List Str × Str)) : WFk (buildTree l) := by
  have h : ∀ (l : List (List Str × Str)) (t : JTree), WFk t →
      WFk (l.foldl (fun t e => add_to_tree t e.1 e.2) t) := by
    intro l
    induction l with
    | nil =>
      intro t h
      exact h
    | cons e l ih =>
      intro t h
      simp only [List.foldl_cons]
      exact ih _ (WFk_add e.1 e.2 h)
  exact h l emptyTree WFk_emptyTree

/-- Soundness of the decidable check `lowDB`, by strong induction on tree
size. -/
theorem lowD_of_lowDB_aux : ∀ (n : Nat) (t : JTree), sizeOf t ≤ n →
    lowDB t = true → LowD t := by
  intro n
  induction n with
  | zero =>
    intro t h
    obtain ⟨ch, fs⟩ := t
    simp at h
  | succ n ih =>
    intro t h hB
    obtain ⟨ch, fs⟩ := t
    rw [lowDB, Bool.and_eq_true, Bool.and_eq_true] at hB
    refine LowD.mk (distinctLowB_pairwise hB.1.1) (distinctLowB_pairwise hB.1.2) ?_
    intro p hp
    obtain ⟨pk, pt⟩ := p
    show LowD pt
    apply ih
    · have hsz := List.sizeOf_lt_of_mem hp
      have hps : sizeOf ((pk, pt) : Str × JTree) = 1 + sizeOf pk + sizeOf pt := rfl
      have hns : sizeOf (JTree.node ch fs) = 1 + sizeOf ch + sizeOf fs := by
        simp [JTree.node.sizeOf_spec]
      rw [hps] at hsz
      rw [hns] at h
      omega
    · exact lowDBList_mem hB.2 hp

theorem lowD_of_lowDB {t : JTree} (h : lowDB t = true) : LowD t :=
  lowD_of_lowDB_aux (sizeOf t) t (Nat.le_refl _) h

/-- Tree equivalence transports the distinct-lowercased-names invariant
(keys and file lists are permutations, subtrees are looked up). -/
theorem lowD_of_equiv : ∀ {t1 t2 : JTree}, TEquiv t1 t2 → WFk t2 → LowD t1 → LowD t2 := by
  intro t1 t2 h
  induction h with
  | mk hfs hk hlook ih =>
    rename_i ch1 ch2 fs1 fs2
    intro hw2 hd1
    obtain ⟨hnd2, hwrec2⟩ := hw2
    obtain ⟨hchD1, hfsD1, hdrec1⟩ := hd1
    refine LowD.mk ?_ ?_ ?_
    · exact (hk.pairwise_iff (fun hh => Ne.symm hh)).1 hchD1
    · exact ((hfs.map (fun p => p.1)).pairwise_iff (fun hh => Ne.symm hh)).1 hfsD1
    · intro p hp
      obtain ⟨pk, pt⟩ := p
      show LowD pt
      have h2 : lookupA pk ch2 = some pt := lookupA_of_mem_nodup hnd2 hp
      have hmem1 : pk ∈ ch1.map (fun q => q.1) :=
        hk.mem_iff.2 (List.mem_map.2 ⟨(pk, pt), hp, rfl⟩)
      cases hl : lookupA pk ch1 with
      | none => exact absurd hmem1 (lookupA_eq_none_iff.1 hl)
      | some s1 =>
        exact ih pk s1 pt hl h2 (hwrec2 (pk, pt) hp) (hdrec1 (pk, s1) (lookupA_mem hl))

/-- In a list whose elements are pairwise related (in order), any two
distinct members are related, given symmetry. -/
theorem pairwise_ne_of_mem {β : Type} {R : β → β → Prop}
    (hsym : ∀ a b, R a b → R b a) :
    ∀ {l : List β}, l.Pairwise R → ∀ {x y : β}, x ∈ l → y ∈ l → x ≠ y → R x y := by
  intro l
  induction l with
  | nil =>
    intro _ x y hx
    cases hx
  | cons a t ih =>
    intro hp x y hx hy hne
    have hp' := List.pairwise_cons.1 hp
    rcases List.mem_cons.1 hx with hex | hmx
    · rcases List.mem_cons.1 hy with hey | hmy
      · exact absurd (hex.trans hey.symm) hne
      · subst hex
        exact hp'.1 y hmy
    · rcases List.mem_cons.1 hy with hey | hmy
      · subst hey
        exact hsym _ _ (hp'.1 x hmx)
      · exact ih hp'.2 hmx hmy hne

/-- A permutation between two sorted lists is the identity when the order
is antisymmetric on the members involved (Python stable sort uniqueness). -/
theorem sorted_perm_eq {α : Type} {r : α → α → Prop} :
    ∀ {l1 l2 : List α}, l1.Perm l2 → l1.Pairwise r → l2.Pairwise r →
      (∀ a ∈ l1, ∀ b ∈ l1, a ≠ b → ¬(r a b ∧ r b a)) → l1 = l2 := by
  intro l1
  induction l1 with
  | nil =>
    intro l2 hp _ _ _
    exact hp.symm.eq_nil.symm
  | cons a t ih =>
    intro l2 hp hs1 hs2 hanti
    cases l2 with
    | nil => exact hp.eq_nil
    | cons b t2 =>
      by_cases hab : a = b
      · subst hab
        have hanti' : ∀ x ∈ t, ∀ y ∈ t, x ≠ y → ¬(r x y ∧ r y x) :=
          fun x hx y hy hxy =>
            hanti x (List.mem_cons_of_mem _ hx) y (List.mem_cons_of_mem _ hy) hxy
        rw [ih hp.cons_inv (List.pairwise_cons.1 hs1).2 (List.pairwise_cons.1 hs2).2 hanti']
      · exfalso
        have hb1 : b ∈ a :: t := hp.mem_iff.2 (List.mem_cons_self _ _)
        have ha2 : a ∈ b :: t2 := hp.mem_iff.1 (List.mem_cons_self _ _)
        have hbt : b ∈ t := by
          rcases List.mem_cons.1 hb1 with he | hm
          · exact absurd he.symm hab
          · exact hm
        have hat : a ∈ t2 := by
          rcases List.mem_cons.1 ha2 with he | hm
          · exact absurd he hab
          · exact hm
        have hrab : r a b := (List.pairwise_cons.1 hs1).1 b hbt
        have hrba : r b a := (List.pairwise_cons.1 hs2).1 a hat
        exact hanti a (List.mem_cons_self _ _) b hb1 hab ⟨hrab, hrba⟩

/-- Two folder lists with identical name sequences and pointwise equal
recursive renderings contribute identical blocks. -/
theorem folderBlocks_eq : ∀ (l1 l2 : List (Str × JTree)) (pfx : Str) (b : Bool),
    l1.map (fun p => p.1) = l2.map (fun p => p.1) →
    (∀ p1 ∈ l1, ∀ p2 ∈ l2, p1.1 = p2.1 →
      render_tree p1.2 (pfx ++ p1.1 ++ "/".data) false
        = render_tree p2.2 (pfx ++ p2.1 ++ "/".data) false) →
    l1.flatMap (folderBlock pfx b) = l2.flatMap (folderBlock pfx b)
  | [], [], _, _, _, _ => rfl
  | [], q :: l2, pfx, b, hk, _ => by cases hk
  | p :: l1, [], pfx, b, hk, _ => by cases hk
  | p :: l1, q :: l2, pfx, b, hk, hr => by
    rw [List.map_cons, List.map_cons] at hk
    injection hk with hk1 hk2
    rw [List.flatMap_cons, List.flatMap_cons]
    have hre := hr p (List.mem_cons_self _ _) q (List.mem_cons_self _ _) hk1
    have hhead : folderBlock pfx b p = folderBlock pfx b q := by
      simp only [folderBlock]
      rw [hre, hk1]
    rw [hhead, folderBlocks_eq l1 l2 pfx b hk2 (fun p1 hp1 p2 hp2 hpp =>
      hr p1 (List.mem_cons_of_mem _ hp1) p2 (List.mem_cons_of_mem _ hp2) hpp)]

/-- Equivalent well-formed trees with pairwise lowercase-distinct sibling
names render to identical HTML: the stable sorts agree because keys/files
are permutations of each other, are sorted the same way, and ties are
impossible. -/
theorem render_eq_of_equiv : ∀ {t1 t2 : JTree}, TEquiv t1 t2 → WFk t1 → WFk t2 →
    LowD t1 → LowD t2 → ∀ (pfx : Str) (b : Bool),
    render_tree t1 pfx b = render_tree t2 pfx b := by
  intro t1 t2 h
  induction h with
  | mk hfs hk hlook ih =>
    rename_i ch1 ch2 fs1 fs2
    intro hw1 hw2 hd1 hd2 pfx b
    obtain ⟨hnd1, hwrec1⟩ := hw1
    obtain ⟨hnd2, hwrec2⟩ := hw2
    obtain ⟨hchD1, hfsD1, hdrec1⟩ := hd1
    obtain ⟨hchD2, hfsD2, hdrec2⟩ := hd2
    rw [render_tree_node, render_tree_node]
    have hfseq : fs1.insertionSort fileLe = fs2.insertionSort fileLe := by
      apply sorted_perm_eq (r := fileLe)
      · exact ((List.perm_insertionSort fileLe fs1).trans hfs).trans
          (List.perm_insertionSort fileLe fs2).symm
      · exact List.sorted_insertionSort fileLe fs1
      · exact List.sorted_insertionSort fileLe fs2
      · intro x hx y hy hxy hc
        have hx1 : x ∈ fs1 := (List.mem_insertionSort fileLe).1 hx
        have hy1 : y ∈ fs1 := (List.mem_insertionSort fileLe).1 hy
        rw [List.pairwise_map] at hfsD1
        exact pairwise_ne_of_mem (fun a b hh hee => hh hee.symm) hfsD1 hx1 hy1 hxy
          (le_antisymm hc.1 hc.2)
    have hmap1 : ((ch1.insertionSort folderLe).map (fun p => p.1)).Pairwise
        (fun a b => lowStr a ≤ lowStr b) :=
      List.Pairwise.map _ (fun a b hab => hab) (List.sorted_insertionSort folderLe ch1)
    have hmap2 : ((ch2.insertionSort folderLe).map (fun p => p.1)).Pairwise
        (fun a b => lowStr a ≤ lowStr b) :=
      List.Pairwise.map _ (fun a b hab => hab) (List.sorted_insertionSort folderLe ch2)
    have hkeq : (ch1.insertionSort folderLe).map (fun p => p.1)
        = (ch2.insertionSort folderLe).map (fun p => p.1) := by
      apply sorted_perm_eq (r := fun a b => lowStr a ≤ lowStr b)
      · exact (((List.perm_insertionSort folderLe ch1).map (fun p => p.1)).trans hk).trans
          ((List.perm_insertionSort folderLe ch2).map (fun p => p.1)).symm
      · exact hmap1
      · exact hmap2
      · intro x hx y hy hxy hc
        obtain ⟨px, hpx, hfx⟩ := List.mem_map.1 hx
        obtain ⟨py, hpy, hfy⟩ := List.mem_map.1 hy
        subst hfx
        subst hfy
        have hx1 : px.1 ∈ ch1.map (fun p => p.1) :=
          List.mem_map.2 ⟨px, (List.mem_insertionSort folderLe).1 hpx, rfl⟩
        have hy1 : py.1 ∈ ch1.map (fun p => p.1) :=
          List.mem_map.2 ⟨py, (List.mem_insertionSort folderLe).1 hpy, rfl⟩
        exact pairwise_ne_of_mem (fun a b hh hee => hh hee.symm) hchD1 hx1 hy1 hxy
          (le_antisymm hc.1 hc.2)
    have hpoint : ∀ p1 ∈ ch1.insertionSort folderLe, ∀ p2 ∈ ch2.insertionSort folderLe,
        p1.1 = p2.1 → render_tree p1.2 (pfx ++ p1.1 ++ "/".data) false
          = render_tree p2.2 (pfx ++ p2.1 ++ "/".data) false := by
      intro p1 hp1 p2 hp2 hpp
      have hm1 : p1 ∈ ch1 := (List.mem_insertionSort folderLe).1 hp1
      have hm2 : p2 ∈ ch2 := (List.mem_insertionSort folderLe).1 hp2
      have hl1 : lookupA p1.1 ch1 = some p1.2 := lookupA_of_mem_nodup hnd1 hm1
      have hl2 : lookupA p1.1 ch2 = some p2.2 := by
        rw [hpp]
        exact lookupA_of_mem_nodup hnd2 hm2
      have hrec := ih p1.1 p1.2 p2.2 hl1 hl2 (hwrec1 p1 hm1) (hwrec2 p2 hm2)
        (hdrec1 p1 hm1) (hdrec2 p2 hm2) (pfx ++ p1.1 ++ "/".data) false
      rw [hrec, hpp]
    rw [hfseq, folderBlocks_eq _ _ pfx b hkeq hpoint]

set_option maxRecDepth 8192 in
/-- C5 counterexample: the claim promises byte-identical HTML for every
permutation of the entries, but Python's `sorted` is stable, so two files
whose names are equal after lowercasing (`A.nlogox` vs `a.nlogox`) keep
their insertion order and the two orders render different HTML. -/
theorem c5_counterexample :
    render_tree
        (buildTree [(["A.nlogox".data], "x".data), (["a.nlogox".data], "y".data)]) [] false
      ≠ render_tree
        (buildTree [(["a.nlogox".data], "y".data), (["A.nlogox".data], "x".data)]) [] false := by
  have hA : stripNlogox ("A.nlogox".data) = "A".data := by
    rw [show ("A.nlogox".data : Str)
      = 'A' :: ('.' :: 'n' :: 'l' :: 'o' :: 'g' :: 'o' :: 'x' :: []) from rfl]
    rw [stripNlogox_other (by simp), stripNlogox_ext, stripNlogox_nil]
  have ha : stripNlogox ("a.nlogox".data) = "a".data := by
    rw [show ("a.nlogox".data : Str)
      = 'a' :: ('.' :: 'n' :: 'l' :: 'o' :: 'g' :: 'o' :: 'x' :: []) from rfl]
    rw [stripNlogox_other (by simp), stripNlogox_ext, stripNlogox_nil]
  have h1 : buildTree [(["A.nlogox".data], "x".data), (["a.nlogox".data], "y".data)]
      = JTree.node [] [("A.nlogox".data, "x".data), ("a.nlogox".data, "y".data)] := rfl
  have h2 : buildTree [(["a.nlogox".data], "y".data), (["A.nlogox".data], "x".data)]
      = JTree.node [] [("a.nlogox".data, "y".data), ("A.nlogox".data, "x".data)] := rfl
  have hs1 : ([("A.nlogox".data, "x".data), ("a.nlogox".data, "y".data)]
      : List (Str × Str)).insertionSort fileLe
      = [("A.nlogox".data, "x".data), ("a.nlogox".data, "y".data)] := by decide
  have hs2 : ([("a.nlogox".data, "y".data), ("A.nlogox".data, "x".data)]
      : List (Str × Str)).insertionSort fileLe
      = [("a.nlogox".data, "y".data), ("A.nlogox".data, "x".data)] := by decide
  rw [h1, h2, render_tree_node, render_tree_node, hs1, hs2]
  simp only [List.map_cons, List.map_nil, fileChunk, hA, ha]
  decide

/-- C5 as corrected: rendering is independent of insertion order provided
no two sibling names at any level coincide after lowercasing (`lowDB`);
for any permutation of the entry list, building the tree with
`add_to_tree` from the empty tree and rendering gives byte-identical HTML.
Without that proviso the claim fails (`sorted` is stable, so
case-insensitive ties keep insertion order). -/
theorem c5_order_independent_when_names_distinct
    (l1 l2 : List (List Str × Str)) (hp : l1.Perm l2)
    (hd : lowDB (buildTree l1) = true) :
    render_tree (buildTree l1) [] false = render_tree (buildTree l2) [] false := by
  have he : TEquiv (buildTree l1) (buildTree l2) := fold_perm_equiv hp emptyTree
  have hw1 := WFk_buildTree l1
  have hw2 := WFk_buildTree l2
  have hd1 := lowD_of_lowDB hd
  have hd2 := lowD_of_equiv he hw2 hd1
  exact render_eq_of_equiv he hw1 hw2 hd1 hd2 [] false

set_option maxRecDepth 8192 in
/-- Witness for C5: two concrete entries with distinct lowercased names,
inserted in both orders, render identically. -/
theorem c5_witness :
    render_tree
        (buildTree [(["B.nlogox".data], "x".data), (["Sub".data, "a.nlogox".data], "y".data)]) [] false
      = render_tree
        (buildTree [(["Sub".data, "a.nlogox".data], "y".data), (["B.nlogox".data], "x".data)]) [] false :=
  c5_order_independent_when_names_distinct _ _ (by decide) (by decide)
